import Mathlib

/-!
Shallow embedding of the dmini INI-file module (src/src/dmini.c).

C strings are modelled as `List Char` (`Str`); a possibly-NULL C string or
pointer is `Option _`.  The linked lists of sections and of key/value pairs
are Lean lists; an in-place update through a node pointer becomes a
functional update of the list element (identified by its index, which is
stable because sections and pairs are only ever appended at the end).
Machine `int` is modelled as `Int` (the claims under study never exercise
overflow).  Allocation failure, which most claims assume away, is modelled
separately for the `set_pair_in_section` atomicity claim with an explicit
oracle of allocation outcomes.
-/

abbrev Str := List Char

/-- The whitespace test used by trim_whitespace in dmini.c
(space, tab, carriage return, newline). -/
def isWs (c : Char) : Bool :=
  c = ' ' || c = '\t' || c = '\r' || c = '\n'

/-- trim_whitespace (dmini.c:48): drop leading whitespace, then trailing
whitespace.  The C code mutates the buffer in place; functionally it
returns the string without its whitespace margins. -/
def trim_whitespace (s : Str) : Str :=
  ((s.dropWhile isWs).reverse.dropWhile isWs).reverse

/-- Key/value pair node (struct dmini_pair).  Both strings are owned
copies and non-NULL in every state reachable without allocation failure. -/
structure DPair where
  key : Str
  value : Str
deriving DecidableEq, Repr

/-- Section node (struct dmini_section): `name = none` is the NULL name of
the global section. -/
structure DSection where
  name : Option Str
  pairs : List DPair
deriving DecidableEq, Repr

/-- struct dmini_context: the list of sections. -/
structure DContext where
  sections : List DSection
deriving DecidableEq, Repr

/-- Error codes from dmini.h. -/
def DMINI_OK : Int := 0

def DMINI_ERR_MEMORY : Int := -2

def DMINI_ERR_INVALID : Int := -3

def DMINI_ERR_NOT_FOUND : Int := -4

/-- The name comparison inside find_section (dmini.c:108-115): both NULL,
or both non-NULL and strcmp equal. -/
def section_name_matches (n : Option Str) (target : Option Str) : Bool :=
  match n, target with
  | none, none => true
  | some a, some b => a = b
  | _, _ => false

/-- find_section (dmini.c:98) as an index into the section list (the C
code returns the node pointer; the index identifies the same node). -/
def find_sec_idx : List DSection → Option Str → Option Nat
  | [], _ => none
  | s :: rest, t =>
    if section_name_matches s.name t then some 0
    else (find_sec_idx rest t).map (· + 1)

/-- find_section (dmini.c:98) returning the section value itself. -/
def find_section_in : List DSection → Option Str → Option DSection
  | [], _ => none
  | s :: rest, t =>
    if section_name_matches s.name t then some s else find_section_in rest t

def find_section (ctx : DContext) (t : Option Str) : Option DSection :=
  find_section_in ctx.sections t

/-- find_pair (dmini.c:125): first pair with a strcmp-equal key. -/
def find_pair : List DPair → Str → Option DPair
  | [], _ => none
  | p :: rest, k => if p.key = k then some p else find_pair rest k

/-- get_or_create_section (dmini.c:241): return the existing section's
index, or append a fresh empty section at the end of the list (the new
node's index is the old length). -/
def get_or_create_section (ctx : DContext) (t : Option Str) : DContext × Nat :=
  match find_sec_idx ctx.sections t with
  | some i => (ctx, i)
  | none => (⟨ctx.sections ++ [⟨t, []⟩]⟩, ctx.sections.length)

/-- set_pair_in_section (dmini.c:283) restricted to the pair list, with
every allocation succeeding: overwrite the first pair with this key in
place, or append a new pair at the end. -/
def set_pair_in_pairs : List DPair → Str → Str → List DPair
  | [], k, v => [⟨k, v⟩]
  | p :: rest, k, v =>
    if p.key = k then ⟨p.key, v⟩ :: rest
    else p :: set_pair_in_pairs rest k v

/-- Apply set_pair_in_section to the section at index `i` (the section the
C code holds a pointer to), leaving every other section untouched. -/
def set_pair_at : List DSection → Nat → Str → Str → List DSection
  | [], _, _, _ => []
  | s :: rest, 0, k, v => ⟨s.name, set_pair_in_pairs s.pairs k v⟩ :: rest
  | s :: rest, i + 1, k, v => s :: set_pair_at rest i k v

/-- dmini_create (dmini.c:365): a context holding exactly the nameless
global section. -/
def dmini_create : DContext := ⟨[⟨none, []⟩]⟩

/-- dmini_set_string (dmini.c:738) with non-NULL context/key/value and no
allocation failure: get-or-create the section, then set the pair in it. -/
def dmini_set_string (ctx : DContext) (sec : Option Str) (k v : Str) : DContext :=
  let ci := get_or_create_section ctx sec
  ⟨set_pair_at ci.1.sections ci.2 k v⟩

/-- The digit characters produced by the conversion loop of dmini_set_int
(dmini.c:769-773), most significant first; empty for 0. -/
def dec_digits (n : Nat) : Str :=
  if h : n = 0 then []
  else dec_digits (n / 10) ++ [Nat.digitChar (n % 10)]
decreasing_by exact Nat.div_lt_self (Nat.pos_of_ne_zero h) (by decide)

/-- The decimal rendering of dmini_set_int (dmini.c:754): at least one
digit (0 renders as "0"), and a leading minus for negative values. -/
def int_to_decimal (v : Int) : Str :=
  if v < 0 then '-' :: (if v.natAbs = 0 then ['0'] else dec_digits v.natAbs)
  else if v.natAbs = 0 then ['0'] else dec_digits v.natAbs

/-- dmini_set_int (dmini.c:754): render the integer and store it through
dmini_set_string. -/
def dmini_set_int (ctx : DContext) (sec : Option Str) (k : Str) (v : Int) : DContext :=
  dmini_set_string ctx sec k (int_to_decimal v)

/-- dmini_get_string (dmini.c:676).  A NULL context, NULL key, missing
section or missing key all yield the caller's default (itself possibly
NULL); a hit yields the stored value. -/
def dmini_get_string (ctx : Option DContext) (sec : Option Str) (key : Option Str)
    (default_value : Option Str) : Option Str :=
  match ctx, key with
  | some c, some k =>
    match find_section c sec with
    | none => default_value
    | some s =>
      match find_pair s.pairs k with
      | none => default_value
      | some p => some p.value
  | _, _ => default_value

/-- The whitespace skipped by dmini_get_int (dmini.c:712): space and tab only. -/
def skip_int_ws (s : Str) : Str :=
  s.dropWhile (fun c => c = ' ' || c = '\t')

/-- The sign handling of dmini_get_int (dmini.c:718-726). -/
def parse_sign : Str → Int × Str
  | '-' :: rest => (-1, rest)
  | '+' :: rest => (1, rest)
  | s => (1, s)

/-- The digit loop of dmini_get_int (dmini.c:729-733): accumulate decimal
digits, stopping at the first non-digit. -/
def parse_digits_acc : Str → Int → Int
  | c :: rest, acc =>
    if '0' ≤ c ∧ c ≤ '9' then parse_digits_acc rest (acc * 10 + ((c.toNat : Int) - ('0'.toNat : Int)))
    else acc
  | [], acc => acc

/-- The whole string-to-int conversion of dmini_get_int (dmini.c:706-735). -/
def cstr_to_int (v : Str) : Int :=
  let p := skip_int_ws v
  let sp := parse_sign p
  parse_digits_acc sp.2 0 * sp.1

/-- dmini_get_int (dmini.c:698): look the value up with a NULL default;
NULL result means miss and yields the caller's default, otherwise the
value is converted. -/
def dmini_get_int (ctx : Option DContext) (sec : Option Str) (key : Option Str)
    (default_value : Int) : Int :=
  match dmini_get_string ctx sec key none with
  | none => default_value
  | some v => cstr_to_int v

/-- dmini_has_section (dmini.c:784). -/
def dmini_has_section (ctx : Option DContext) (sec : Option Str) : Bool :=
  match ctx with
  | none => false
  | some c => (find_section c sec).isSome

/-- dmini_has_key (dmini.c:794). -/
def dmini_has_key (ctx : Option DContext) (sec : Option Str) (key : Option Str) : Bool :=
  match ctx, key with
  | some c, some k =>
    match find_section c sec with
    | none => false
    | some s => (find_pair s.pairs k).isSome
  | _, _ => false

/-- The removal loop of dmini_remove_section (dmini.c:817-840): unlink the
first section whose name is non-NULL and strcmp-equal to the target;
`none` when no section matches. -/
def remove_first_named : List DSection → Str → Option (List DSection)
  | [], _ => none
  | s :: rest, t =>
    match s.name with
    | some n =>
      if n = t then some rest
      else (remove_first_named rest t).map (s :: ·)
    | none => (remove_first_named rest t).map (s :: ·)

/-- dmini_remove_section (dmini.c:810): NULL name is InvalidArgument; a
match is unlinked and freed; otherwise NotFound. -/
def dmini_remove_section (ctx : DContext) (sec : Option Str) : Int × DContext :=
  match sec with
  | none => (DMINI_ERR_INVALID, ctx)
  | some t =>
    match remove_first_named ctx.sections t with
    | some ss => (DMINI_OK, ⟨ss⟩)
    | none => (DMINI_ERR_NOT_FOUND, ctx)

/-- The pair-removal loop of dmini_remove_key (dmini.c:858-881). -/
def remove_first_pair : List DPair → Str → Option (List DPair)
  | [], _ => none
  | p :: rest, k =>
    if p.key = k then some rest
    else (remove_first_pair rest k).map (p :: ·)

/-- dmini_remove_key (dmini.c:845) on the section list: find the first
matching section, then remove the key inside it; NotFound when either
lookup misses. -/
def remove_key_in_sections : List DSection → Option Str → Str → Int × List DSection
  | [], _, _ => (DMINI_ERR_NOT_FOUND, [])
  | s :: rest, t, k =>
    if section_name_matches s.name t then
      match remove_first_pair s.pairs k with
      | some ps => (DMINI_OK, ⟨s.name, ps⟩ :: rest)
      | none => (DMINI_ERR_NOT_FOUND, s :: rest)
    else
      let r := remove_key_in_sections rest t k
      (r.1, s :: r.2)

/-- dmini_remove_key (dmini.c:845) with a non-NULL context and key. -/
def dmini_remove_key (ctx : DContext) (sec : Option Str) (k : Str) : Int × DContext :=
  let r := remove_key_in_sections ctx.sections sec k
  (r.1, ⟨r.2⟩)

/-- The per-pair byte count of the sizing pass of dmini_generate_string
(dmini.c:573): strlen(key) + strlen(value) + 2 for "key=value\n". -/
def size_pairs : List DPair → Nat
  | [] => 0
  | p :: rest => p.key.length + p.value.length + 2 + size_pairs rest

/-- The sizing pass of dmini_generate_string (dmini.c:557-584): header
bytes for a named section, pair bytes, and one separator byte after a
named section that is followed by another section. -/
def size_sections : List DSection → Nat
  | [] => 0
  | s :: rest =>
    (match s.name with
     | some n => n.length + 3
     | none => 0)
    + size_pairs s.pairs
    + (if s.name.isSome ∧ rest ≠ [] then 1 else 0)
    + size_sections rest

/-- The buffer size computed before allocation in dmini_generate_string
(the terminating NUL byte is allocated on top of this). -/
def generate_buffer_size (ctx : DContext) : Nat :=
  size_sections ctx.sections

/-- The pair-emitting loop of the writing pass of dmini_generate_string
(dmini.c:611-623): "key=value\n" for each pair in stored order. -/
def render_pairs : List DPair → Str
  | [] => []
  | p :: rest => p.key ++ '=' :: (p.value ++ '\n' :: render_pairs rest)

/-- The writing pass of dmini_generate_string (dmini.c:593-632): for each
section in stored order emit "[name]\n" unless the section is the nameless
global one, then its pairs, then one blank line when the section is named
and another section follows. -/
def render_sections : List DSection → Str
  | [] => []
  | s :: rest =>
    (match s.name with
     | some n => '[' :: (n ++ [']', '\n'])
     | none => [])
    ++ render_pairs s.pairs
    ++ (if s.name.isSome ∧ rest ≠ [] then ['\n'] else [])
    ++ render_sections rest

/-- dmini_generate_string (dmini.c:550) on a non-NULL context, with the
allocation succeeding: the emitted text. -/
def dmini_generate_string (ctx : DContext) : Str :=
  render_sections ctx.sections

/-- After the first line terminator, dmini_parse_string consumes at most
one immediately following '\n' or '\r' (dmini.c:438-442). -/
def drop_second_nl : Str → Str
  | c2 :: r2 => if c2 = '\n' || c2 = '\r' then r2 else c2 :: r2
  | [] => []

/-- The line-splitting step of dmini_parse_string (dmini.c:426-443): the
current line runs to the first '\n' or '\r'; that terminator and at most
one immediately following '\n' or '\r' are consumed. -/
def break_line : Str → Str × Str
  | [] => ([], [])
  | c :: rest =>
    if c = '\n' || c = '\r' then ([], drop_second_nl rest)
    else
      let lr := break_line rest
      (c :: lr.1, lr.2)

/-- The scan predicate of the header branch (dmini.c:459): keep scanning
while the character is not ']'. -/
def not_rb (c : Char) : Bool := c ≠ ']'

/-- The scan predicate of the key=value branch (dmini.c:483): keep
scanning while the character is not '='. -/
def not_eqs (c : Char) : Bool := c ≠ '='

/-- The section-header branch of dmini_parse_string (dmini.c:456-479):
`rest` is the trimmed line without its leading '['.  Scan for the first
']'; if none, the line is ignored; otherwise the text before it, trimmed,
names the section that becomes current (created on demand). -/
def header_line_step (ctx : DContext) (cur : Option Nat) (rest : Str) :
    Int × DContext × Option Nat :=
  match rest.dropWhile not_rb with
  | [] => (DMINI_OK, ctx, cur)
  | _ :: _ =>
    (DMINI_OK,
      (get_or_create_section ctx (some (trim_whitespace (rest.takeWhile not_rb)))).1,
      some (get_or_create_section ctx (some (trim_whitespace (rest.takeWhile not_rb)))).2)

/-- The key=value branch of dmini_parse_string (dmini.c:481-503) applied
to the whole trimmed line: scan for the first '='; if none, the line is
ignored; otherwise split there, trim both sides, drop the line if the key
is empty, and otherwise set the pair in the current section (a NULL
current section makes set_pair_in_section report InvalidArgument). -/
def kv_line_step (ctx : DContext) (cur : Option Nat) (line : Str) :
    Int × DContext × Option Nat :=
  match line.dropWhile not_eqs with
  | [] => (DMINI_OK, ctx, cur)
  | _ :: after =>
    if trim_whitespace (line.takeWhile not_eqs) = [] then (DMINI_OK, ctx, cur)
    else
      match cur with
      | none => (DMINI_ERR_INVALID, ctx, cur)
      | some i =>
        (DMINI_OK,
          ⟨set_pair_at ctx.sections i
            (trim_whitespace (line.takeWhile not_eqs))
            (trim_whitespace after)⟩,
          some i)

/-- Processing of one line by dmini_parse_string (dmini.c:445-503).
`cur` is the index of the current section (`none` models a NULL
current-section pointer, possible only when the context has no sections).
Returns (status, context, current section). -/
def parse_line_step (ctx : DContext) (cur : Option Nat) (rawline : Str) :
    Int × DContext × Option Nat :=
  match trim_whitespace rawline with
  | [] => (DMINI_OK, ctx, cur)
  | c :: rest =>
    if c = ';' ∨ c = '#' then (DMINI_OK, ctx, cur)
    else if c = '[' then header_line_step ctx cur rest
    else kv_line_step ctx cur (c :: rest)

theorem drop_second_nl_le (s : Str) : (drop_second_nl s).length ≤ s.length := by
  match s with
  | [] => simp [drop_second_nl]
  | c2 :: r2 =>
    simp only [drop_second_nl]
    split <;> simp <;> omega

theorem break_line_rest_le : ∀ s : Str, (break_line s).2.length ≤ s.length := by
  intro s
  induction s with
  | nil => simp [break_line]
  | cons c rest ih =>
    have h2 := drop_second_nl_le rest
    simp only [break_line]
    split <;> simp <;> omega

theorem break_line_rest_lt : ∀ s : Str, s ≠ [] → (break_line s).2.length < s.length := by
  intro s hs
  match s with
  | [] => exact absurd rfl hs
  | c :: rest =>
    have h2 := drop_second_nl_le rest
    have h3 := break_line_rest_le rest
    simp only [break_line]
    split <;> simp <;> omega

/-- The line loop of dmini_parse_string (dmini.c:424-506): process lines
until the input is exhausted, aborting at the first non-OK status.  The
loop consumes at least one character per iteration, so running it with
`s.length` fuel is exact; fuel-out on a non-empty input is unreachable
when called with that fuel. -/
def parse_lines : Nat → DContext → Option Nat → Str → Int × DContext
  | _, ctx, _, [] => (DMINI_OK, ctx)
  | 0, ctx, _, _ :: _ => (DMINI_OK, ctx)
  | f + 1, ctx, cur, c :: r =>
    let scr := parse_line_step ctx cur (break_line (c :: r)).1
    if scr.1 = DMINI_OK then parse_lines f scr.2.1 scr.2.2 (break_line (c :: r)).2
    else (scr.1, scr.2.1)

/-- dmini_parse_string (dmini.c:405) on a non-NULL context and input, with
the scratch copy allocation succeeding: the current section starts at the
head of the section list (NULL when the list is empty). -/
def dmini_parse_string (ctx : DContext) (data : Str) : Int × DContext :=
  parse_lines data.length ctx (if ctx.sections = [] then none else some 0) data

theorem size_pairs_eq_length : ∀ ps : List DPair, size_pairs ps = (render_pairs ps).length := by
  intro ps
  induction ps with
  | nil => rfl
  | cons p rest ih =>
    simp only [size_pairs, render_pairs, List.length_append, List.length_cons, ih]
    omega

theorem size_sections_eq_length :
    ∀ ss : List DSection, size_sections ss = (render_sections ss).length := by
  intro ss
  induction ss with
  | nil => rfl
  | cons s rest ih =>
    simp only [size_sections, render_sections, List.length_append, ih,
      size_pairs_eq_length]
    match s with
    | ⟨none, ps⟩ => simp
    | ⟨some n, ps⟩ =>
      by_cases hr : rest = [] <;> simp [hr] <;> omega

/-- The description of the serializer in the specification, written from
the spec's words: sections in stored order; a named section contributes
"[name]\n" and then one "key=value\n" line per pair in stored order; the
global section contributes only its pair lines; exactly one blank line
separates a named section from a following section; nothing follows the
last section or the global section's pairs. -/
def serializer_block_of_spec (s : DSection) : Str :=
  (match s.name with
   | none => []
   | some n => '[' :: (n ++ [']', '\n']))
  ++ (s.pairs.map (fun p => p.key ++ '=' :: (p.value ++ ['\n']))).join

def serializer_of_spec : List DSection → Str
  | [] => []
  | [s] => serializer_block_of_spec s
  | s :: s2 :: rest =>
    serializer_block_of_spec s
    ++ (if s.name.isSome then ['\n'] else [])
    ++ serializer_of_spec (s2 :: rest)

theorem render_pairs_eq_spec_lines :
    ∀ ps : List DPair,
      render_pairs ps = (ps.map (fun p => p.key ++ '=' :: (p.value ++ ['\n']))).join := by
  intro ps
  induction ps with
  | nil => rfl
  | cons p rest ih => simp [render_pairs, ih]

theorem render_sections_eq_spec :
    ∀ ss : List DSection, render_sections ss = serializer_of_spec ss := by
  intro ss
  induction ss with
  | nil => rfl
  | cons s rest ih =>
    match rest with
    | [] =>
      cases hn : s.name <;>
        simp [render_sections, serializer_of_spec, serializer_block_of_spec,
          render_pairs_eq_spec_lines, hn]
    | s2 :: rest2 =>
      have unfold1 : render_sections (s :: s2 :: rest2) =
          (match s.name with
           | some n => '[' :: (n ++ [']', '\n'])
           | none => [])
          ++ render_pairs s.pairs
          ++ (if s.name.isSome ∧ (s2 :: rest2) ≠ [] then ['\n'] else [])
          ++ render_sections (s2 :: rest2) := rfl
      have unfold2 : serializer_of_spec (s :: s2 :: rest2) =
          serializer_block_of_spec s
          ++ (if s.name.isSome then ['\n'] else [])
          ++ serializer_of_spec (s2 :: rest2) := rfl
      rw [unfold1, unfold2, ih]
      cases hn : s.name <;>
        simp [serializer_block_of_spec, render_pairs_eq_spec_lines, hn]

/-- Claim C5: dmini_generate_string emits, in stored section order, a
"[name]\n" header plus "key=value\n" lines for a named section, the
global section's pairs first and unprefixed with no header, exactly one
blank-line separator after a named section followed by another section,
and no separator after the global section's pairs or after the last
section — i.e. it coincides with the serializer described by the spec. -/
theorem claim_C5_generate_format (ctx : DContext) :
    dmini_generate_string ctx = serializer_of_spec ctx.sections :=
  render_sections_eq_spec ctx.sections

/-- Claim C7: the byte count computed by the planning pass of
dmini_generate_string equals the length of the text produced by the
writing pass, so the buffer of that size plus one terminator byte is
exactly filled. -/
theorem claim_C7_size_exact (ctx : DContext) :
    generate_buffer_size ctx = (dmini_generate_string ctx).length :=
  size_sections_eq_length ctx.sections

/-- True when the stored value has no digit at the position the digit
loop of dmini_get_int starts at (after the skipped whitespace and the
optional sign). -/
def no_leading_digit (v : Str) : Bool :=
  match (parse_sign (skip_int_ws v)).2 with
  | [] => true
  | c :: _ => !(decide ('0' ≤ c) && decide (c ≤ '9'))

theorem cstr_to_int_of_no_digit (v : Str) (h : no_leading_digit v = true) :
    cstr_to_int v = 0 := by
  unfold cstr_to_int
  unfold no_leading_digit at h
  cases hp : (parse_sign (skip_int_ws v)).2 with
  | nil => simp [hp, parse_digits_acc]
  | cons c rest =>
    rw [hp] at h
    simp only [Bool.not_eq_true', Bool.and_eq_false_iff] at h
    have hnd : ¬('0' ≤ c ∧ c ≤ '9') := by
      intro hcd
      rcases h with h | h
      · exact absurd (decide_eq_true hcd.1) (by simp [h])
      · exact absurd (decide_eq_true hcd.2) (by simp [h])
    simp [hp, parse_digits_acc, hnd]

/-- Claim C2: when the key is found, dmini_get_int returns the converted
stored value, independent of the caller's default; a value with no digit
after the whitespace/sign prelude converts to 0, so 0 — not the default —
is returned; the default is returned exactly in the miss cases (the
lookup with NULL default returned NULL, in particular on a NULL context). -/
theorem claim_C2_get_int_no_digits (c : DContext) (sec : Option Str) (k : Str)
    (d : Int) (v : Str) :
    (dmini_get_string (some c) sec (some k) none = some v →
      dmini_get_int (some c) sec (some k) d = cstr_to_int v ∧
      (no_leading_digit v = true → dmini_get_int (some c) sec (some k) d = 0)) ∧
    (dmini_get_string (some c) sec (some k) none = none →
      dmini_get_int (some c) sec (some k) d = d) ∧
    dmini_get_int none sec (some k) d = d := by
  refine ⟨fun hhit => ?_, fun hmiss => ?_, rfl⟩
  · have h1 : dmini_get_int (some c) sec (some k) d = cstr_to_int v := by
      unfold dmini_get_int
      rw [hhit]
    exact ⟨h1, fun hnd => by rw [h1]; exact cstr_to_int_of_no_digit v hnd⟩
  · unfold dmini_get_int
    rw [hmiss]

theorem claim_C2_get_int_no_digits_witness :
    dmini_get_int (some ⟨[⟨none, [⟨['k'], ['x', 'y']⟩]⟩]⟩) none (some ['k']) 7 = 0 :=
  ((claim_C2_get_int_no_digits ⟨[⟨none, [⟨['k'], ['x', 'y']⟩]⟩]⟩ none ['k'] 7
    ['x', 'y']).1 (by decide)).2 (by decide)

/-- Claim C8: the read accessors never fail: a NULL context, a NULL key, a
missing section or a missing key make dmini_get_string and dmini_get_int
return the caller-supplied default and make dmini_has_section and
dmini_has_key return false (the pure model returns no new context, and
indeed none of these functions constructs one). -/
theorem claim_C8_read_accessors_total (c : DContext) (sec : Option Str) (k : Str)
    (ds : Option Str) (di : Int) :
    dmini_get_string none sec (some k) ds = ds ∧
    dmini_get_string (some c) sec none ds = ds ∧
    dmini_get_int none sec (some k) di = di ∧
    dmini_get_int (some c) sec none di = di ∧
    dmini_has_section none sec = false ∧
    dmini_has_key none sec (some k) = false ∧
    dmini_has_key (some c) sec none = false ∧
    (find_section c sec = none →
      dmini_get_string (some c) sec (some k) ds = ds ∧
      dmini_get_int (some c) sec (some k) di = di ∧
      dmini_has_section (some c) sec = false ∧
      dmini_has_key (some c) sec (some k) = false) ∧
    (∀ s, find_section c sec = some s → find_pair s.pairs k = none →
      dmini_get_string (some c) sec (some k) ds = ds ∧
      dmini_get_int (some c) sec (some k) di = di ∧
      dmini_has_key (some c) sec (some k) = false) := by
  refine ⟨rfl, rfl, rfl, rfl, rfl, rfl, rfl, fun hsec => ?_, fun s hsec hpair => ?_⟩
  · exact ⟨by simp [dmini_get_string, hsec],
      by simp [dmini_get_int, dmini_get_string, hsec],
      by simp [dmini_has_section, hsec],
      by simp [dmini_has_key, hsec]⟩
  · exact ⟨by simp [dmini_get_string, hsec, hpair],
      by simp [dmini_get_int, dmini_get_string, hsec, hpair],
      by simp [dmini_has_key, hsec, hpair]⟩

theorem claim_C8_read_accessors_total_witness :
    dmini_get_string (some dmini_create) (some ['s']) (some ['k']) (some ['d']) = some ['d'] :=
  ((claim_C8_read_accessors_total dmini_create (some ['s']) ['k'] (some ['d']) 0).2.2.2.2.2.2.2.1
    (by decide)).1

/-- Pair node for the allocation-failure model of set_pair_in_section:
after a failed value copy the C code leaves pair->value = NULL, so the
value is a nullable pointer here. -/
structure CPair where
  key : Str
  value : Option Str
deriving DecidableEq, Repr

/-- string_duplicate (dmini.c:79) under an allocation oracle (a list of
Bools, the head deciding the next Dmod_Malloc call; an exhausted oracle
means allocations succeed): one allocation; on success the copy, on
failure NULL. -/
def string_dup_a (s : Str) (a : List Bool) : Option Str × List Bool :=
  (if a.headD true then some s else none, a.tail)

/-- create_pair (dmini.c:166) under the oracle: allocate the node, then
duplicate key and value (both duplications are attempted); if the node or
either copy fails, everything allocated is freed and NULL is returned. -/
def create_pair_a (k v : Str) (a : List Bool) : Option CPair × List Bool :=
  if a.headD true then
    match (string_dup_a k a.tail).1, (string_dup_a v (string_dup_a k a.tail).2).1 with
    | some k2, some v2 => (some ⟨k2, some v2⟩, (string_dup_a v (string_dup_a k a.tail).2).2)
    | _, _ => (none, (string_dup_a v (string_dup_a k a.tail).2).2)
  else (none, a.tail)

/-- find_pair (dmini.c:125) on the nullable-value pair list. -/
def find_cpair : List CPair → Str → Option CPair
  | [], _ => none
  | p :: rest, k => if p.key = k then some p else find_cpair rest k

/-- In-place overwrite of the first pair with key `k` by value pointer
`w` (the C code updates the found node through its pointer). -/
def update_cvalue : List CPair → Str → Option Str → List CPair
  | [], _, _ => []
  | p :: rest, k, w => if p.key = k then ⟨p.key, w⟩ :: rest else p :: update_cvalue rest k w

/-- set_pair_in_section (dmini.c:283) under the allocation oracle.  When
the key exists, the old value is freed first and the new value duplicated
into its place; a failed duplication leaves the pair with a NULL value
and reports DMINI_ERR_MEMORY.  When the key does not exist, a fully
constructed pair is appended, or nothing on failure. -/
def set_pair_in_section_a (ps : List CPair) (k v : Str) (a : List Bool) :
    Int × List CPair × List Bool :=
  match find_cpair ps k with
  | some _ =>
    match (string_dup_a v a).1 with
    | some v2 => (DMINI_OK, update_cvalue ps k (some v2), (string_dup_a v a).2)
    | none => (DMINI_ERR_MEMORY, update_cvalue ps k none, (string_dup_a v a).2)
  | none =>
    match (create_pair_a k v a).1 with
    | some p => (DMINI_OK, ps ++ [p], (create_pair_a k v a).2)
    | none => (DMINI_ERR_MEMORY, ps, (create_pair_a k v a).2)

theorem update_cvalue_keys : ∀ (ps : List CPair) (k : Str) (w : Option Str),
    (update_cvalue ps k w).map (fun q => q.key) = ps.map (fun q => q.key) := by
  intro ps k w
  induction ps with
  | nil => rfl
  | cons p rest ih =>
    by_cases hp : p.key = k <;> simp [update_cvalue, hp, ih]

/-- Claim C3 fails on the code: when the key already exists and the copy
of the new value fails, set_pair_in_section reports DMINI_ERR_MEMORY but
the pre-existing pair's value has been freed and nulled — the pair
sequence is observably changed. -/
theorem claim_C3_counterexample :
    (set_pair_in_section_a [⟨['k'], some ['o']⟩] ['k'] ['n'] [false]).1 = DMINI_ERR_MEMORY ∧
    (set_pair_in_section_a [⟨['k'], some ['o']⟩] ['k'] ['n'] [false]).2.1 ≠
      [⟨['k'], some ['o']⟩] := by
  decide

/-- Claim C3 as amended: set_pair_in_section signals DMINI_ERR_MEMORY
when a required copy cannot be made; if the failure occurs while creating
a new pair (key not yet present) the section's pair sequence is
observably unchanged; if it occurs while overwriting an existing key, the
keys and their order are unchanged but the matched pair's pre-existing
value is destroyed (left NULL) rather than preserved. -/
theorem claim_C3_set_pair_failure (ps : List CPair) (k v : Str) (a : List Bool) :
    ((set_pair_in_section_a ps k v a).1 = DMINI_OK ∨
      (set_pair_in_section_a ps k v a).1 = DMINI_ERR_MEMORY) ∧
    ((set_pair_in_section_a ps k v a).1 = DMINI_ERR_MEMORY →
      (find_cpair ps k = none → (set_pair_in_section_a ps k v a).2.1 = ps) ∧
      (find_cpair ps k ≠ none →
        (set_pair_in_section_a ps k v a).2.1 = update_cvalue ps k none ∧
        ((set_pair_in_section_a ps k v a).2.1).map (fun q => q.key) =
          ps.map (fun q => q.key))) := by
  match hf : find_cpair ps k with
  | some p =>
    match hdv : (string_dup_a v a).1 with
    | some v2 =>
      have he : set_pair_in_section_a ps k v a =
          (DMINI_OK, update_cvalue ps k (some v2), (string_dup_a v a).2) := by
        simp only [set_pair_in_section_a, hf, hdv]
      rw [he]
      exact ⟨Or.inl rfl, fun hbad => (by simp [DMINI_OK, DMINI_ERR_MEMORY] at hbad)⟩
    | none =>
      have he : set_pair_in_section_a ps k v a =
          (DMINI_ERR_MEMORY, update_cvalue ps k none, (string_dup_a v a).2) := by
        simp only [set_pair_in_section_a, hf, hdv]
      rw [he]
      exact ⟨Or.inr rfl, fun _ =>
        ⟨fun hnone => Option.noConfusion hnone,
         fun _ => ⟨rfl, update_cvalue_keys ps k none⟩⟩⟩
  | none =>
    match hc : (create_pair_a k v a).1 with
    | some p2 =>
      have he : set_pair_in_section_a ps k v a =
          (DMINI_OK, ps ++ [p2], (create_pair_a k v a).2) := by
        simp only [set_pair_in_section_a, hf, hc]
      rw [he]
      exact ⟨Or.inl rfl, fun hbad => (by simp [DMINI_OK, DMINI_ERR_MEMORY] at hbad)⟩
    | none =>
      have he : set_pair_in_section_a ps k v a =
          (DMINI_ERR_MEMORY, ps, (create_pair_a k v a).2) := by
        simp only [set_pair_in_section_a, hf, hc]
      rw [he]
      exact ⟨Or.inr rfl, fun _ => ⟨fun _ => rfl, fun hsome => absurd rfl hsome⟩⟩

theorem claim_C3_set_pair_failure_witness :
    (set_pair_in_section_a [] ['k'] ['v'] [false]).1 = DMINI_ERR_MEMORY →
    (set_pair_in_section_a [] ['k'] ['v'] [false]).2.1 = [] :=
  fun h => ((claim_C3_set_pair_failure [] ['k'] ['v'] [false]).2 h).1 (by decide)

theorem section_name_matches_self (t : Option Str) : section_name_matches t t = true := by
  cases t <;> simp [section_name_matches]

theorem set_pair_in_pairs_keys (ps : List DPair) (k v : Str)
    (h : (find_pair ps k).isSome = true) :
    (set_pair_in_pairs ps k v).map (fun p => p.key) = ps.map (fun p => p.key) := by
  induction ps with
  | nil => simp [find_pair] at h
  | cons p rest ih =>
    by_cases hp : p.key = k
    · simp [set_pair_in_pairs, hp]
    · simp only [find_pair, hp, if_neg, if_false] at h
      simp [set_pair_in_pairs, hp, ih h]

theorem set_pair_in_pairs_length_of_found (ps : List DPair) (k v : Str)
    (h : (find_pair ps k).isSome = true) :
    (set_pair_in_pairs ps k v).length = ps.length := by
  have := set_pair_in_pairs_keys ps k v h
  have h2 := congrArg List.length this
  simpa using h2

theorem set_pair_in_pairs_idem (ps : List DPair) (k v : Str) :
    set_pair_in_pairs (set_pair_in_pairs ps k v) k v = set_pair_in_pairs ps k v := by
  induction ps with
  | nil => simp [set_pair_in_pairs]
  | cons p rest ih =>
    by_cases hp : p.key = k
    · simp [set_pair_in_pairs, hp]
    · simp [set_pair_in_pairs, hp, ih]

theorem set_pair_at_names (ss : List DSection) (i : Nat) (k v : Str) :
    (set_pair_at ss i k v).map (fun s => s.name) = ss.map (fun s => s.name) := by
  induction ss generalizing i with
  | nil => rfl
  | cons s rest ih =>
    match i with
    | 0 => simp [set_pair_at]
    | j + 1 => simp [set_pair_at, ih]

theorem set_pair_at_length (ss : List DSection) (i : Nat) (k v : Str) :
    (set_pair_at ss i k v).length = ss.length := by
  have := congrArg List.length (set_pair_at_names ss i k v)
  simpa using this

theorem set_pair_at_idem (ss : List DSection) (i : Nat) (k v : Str) :
    set_pair_at (set_pair_at ss i k v) i k v = set_pair_at ss i k v := by
  induction ss generalizing i with
  | nil => rfl
  | cons s rest ih =>
    match i with
    | 0 => simp [set_pair_at, set_pair_in_pairs_idem]
    | j + 1 => simp [set_pair_at, ih]

theorem set_pair_at_get_self (ss : List DSection) (i : Nat) (k v : Str) (s : DSection)
    (h : ss.get? i = some s) :
    (set_pair_at ss i k v).get? i = some ⟨s.name, set_pair_in_pairs s.pairs k v⟩ := by
  induction ss generalizing i with
  | nil => simp [List.get?] at h
  | cons s0 rest ih =>
    match i with
    | 0 =>
      simp only [List.get?] at h
      cases h
      simp [set_pair_at]
    | j + 1 =>
      simp only [List.get?] at h
      simpa [set_pair_at] using ih j h

theorem set_pair_at_get_other (ss : List DSection) (i : Nat) (k v : Str) (j : Nat)
    (h : j ≠ i) : (set_pair_at ss i k v).get? j = ss.get? j := by
  induction ss generalizing i j with
  | nil => rfl
  | cons s0 rest ih =>
    match i, j with
    | 0, 0 => exact absurd rfl h
    | 0, j2 + 1 => simp [set_pair_at]
    | i2 + 1, 0 => simp [set_pair_at]
    | i2 + 1, j2 + 1 =>
      have hne : j2 ≠ i2 := fun he => h (by rw [he])
      simpa [set_pair_at] using ih i2 j2 hne

theorem find_sec_idx_congr (ss1 ss2 : List DSection) (t : Option Str)
    (h : ss1.map (fun s => s.name) = ss2.map (fun s => s.name)) :
    find_sec_idx ss1 t = find_sec_idx ss2 t := by
  induction ss1 generalizing ss2 with
  | nil =>
    match ss2 with
    | [] => rfl
    | s :: r => simp at h
  | cons s1 r1 ih =>
    match ss2 with
    | [] => simp at h
    | s2 :: r2 =>
      simp only [List.map_cons, List.cons.injEq] at h
      simp [find_sec_idx, h.1, ih r2 h.2]

theorem find_sec_idx_append_self (cs : List DSection) (t : Option Str) (ps : List DPair)
    (h : find_sec_idx cs t = none) :
    find_sec_idx (cs ++ [⟨t, ps⟩]) t = some cs.length := by
  induction cs with
  | nil => simp [find_sec_idx, section_name_matches_self]
  | cons s rest ih =>
    simp only [find_sec_idx] at h
    by_cases hm : section_name_matches s.name t = true
    · simp [hm] at h
    · simp [hm] at h
      simp [find_sec_idx, hm, ih h]

theorem set_pair_at_append_at_length (cs : List DSection) (nm : Option Str)
    (ps : List DPair) (k v : Str) :
    set_pair_at (cs ++ [⟨nm, ps⟩]) cs.length k v = cs ++ [⟨nm, set_pair_in_pairs ps k v⟩] := by
  induction cs with
  | nil => simp [set_pair_at]
  | cons s rest ih => simp [set_pair_at, ih]

theorem dmini_set_string_idem (c : DContext) (sec : Option Str) (k v : Str) :
    dmini_set_string (dmini_set_string c sec k v) sec k v = dmini_set_string c sec k v := by
  match hfind : find_sec_idx c.sections sec with
  | some i =>
    have h1 : dmini_set_string c sec k v = ⟨set_pair_at c.sections i k v⟩ := by
      simp only [dmini_set_string, get_or_create_section, hfind]
    have hfind2 : find_sec_idx (set_pair_at c.sections i k v) sec = some i := by
      rw [find_sec_idx_congr _ c.sections sec (set_pair_at_names c.sections i k v)]
      exact hfind
    have h2 : dmini_set_string ⟨set_pair_at c.sections i k v⟩ sec k v =
        ⟨set_pair_at (set_pair_at c.sections i k v) i k v⟩ := by
      simp only [dmini_set_string, get_or_create_section, hfind2]
    rw [h1, h2, set_pair_at_idem]
  | none =>
    have h1 : dmini_set_string c sec k v =
        ⟨set_pair_at (c.sections ++ [⟨sec, []⟩]) c.sections.length k v⟩ := by
      simp only [dmini_set_string, get_or_create_section, hfind]
    rw [set_pair_at_append_at_length] at h1
    have hfind2 : find_sec_idx (c.sections ++ [⟨sec, set_pair_in_pairs [] k v⟩]) sec =
        some c.sections.length := find_sec_idx_append_self c.sections sec _ hfind
    have h2 : dmini_set_string ⟨c.sections ++ [⟨sec, set_pair_in_pairs [] k v⟩]⟩ sec k v =
        ⟨set_pair_at (c.sections ++ [⟨sec, set_pair_in_pairs [] k v⟩]) c.sections.length k v⟩ := by
      simp only [dmini_set_string, get_or_create_section, hfind2]
    rw [h1, h2, set_pair_at_append_at_length]
    simp [set_pair_in_pairs, set_pair_in_pairs_idem]

/-- Claim C9: when the key already exists in the addressed section,
dmini_set_string overwrites the value in place: the context's section
count is unchanged, every other section is untouched, and the updated
section keeps its name, its pair count, and its keys in their original
positions; moreover dmini_set_string is idempotent — applying it twice
with the same arguments equals applying it once. -/
theorem claim_C9_overwrite_in_place (c : DContext) (sec : Option Str) (k v : Str)
    (i : Nat) (s : DSection) :
    (find_sec_idx c.sections sec = some i → c.sections.get? i = some s →
      (find_pair s.pairs k).isSome = true →
      (dmini_set_string c sec k v).sections.length = c.sections.length ∧
      (dmini_set_string c sec k v).sections.get? i =
        some ⟨s.name, set_pair_in_pairs s.pairs k v⟩ ∧
      (set_pair_in_pairs s.pairs k v).map (fun p => p.key) = s.pairs.map (fun p => p.key) ∧
      (set_pair_in_pairs s.pairs k v).length = s.pairs.length ∧
      (∀ j, j ≠ i → (dmini_set_string c sec k v).sections.get? j = c.sections.get? j)) ∧
    dmini_set_string (dmini_set_string c sec k v) sec k v = dmini_set_string c sec k v := by
  refine ⟨fun hfind hget hkey => ?_, dmini_set_string_idem c sec k v⟩
  have h1 : dmini_set_string c sec k v = ⟨set_pair_at c.sections i k v⟩ := by
    simp only [dmini_set_string, get_or_create_section, hfind]
  rw [h1]
  exact ⟨set_pair_at_length c.sections i k v,
    set_pair_at_get_self c.sections i k v s hget,
    set_pair_in_pairs_keys s.pairs k v hkey,
    set_pair_in_pairs_length_of_found s.pairs k v hkey,
    fun j hj => set_pair_at_get_other c.sections i k v j hj⟩

theorem claim_C9_overwrite_in_place_witness :
    (dmini_set_string ⟨[⟨none, [⟨['k'], ['a']⟩]⟩]⟩ none ['k'] ['b']).sections.length = 1 :=
  (((claim_C9_overwrite_in_place ⟨[⟨none, [⟨['k'], ['a']⟩]⟩]⟩ none ['k'] ['b'] 0
    ⟨none, [⟨['k'], ['a']⟩]⟩).1 (by decide) (by decide) (by decide)).1)

/-- The ways a context evolves through the public mutating API: created by
dmini_create, then any sequence of parse_string / set_string / set_int /
remove_section / remove_key. -/
inductive Reachable : DContext → Prop
  | create : Reachable dmini_create
  | parse (c : DContext) (data : Str) :
      Reachable c → Reachable (dmini_parse_string c data).2
  | set_str (c : DContext) (sec : Option Str) (k v : Str) :
      Reachable c → Reachable (dmini_set_string c sec k v)
  | set_integer (c : DContext) (sec : Option Str) (k : Str) (n : Int) :
      Reachable c → Reachable (dmini_set_int c sec k n)
  | rem_sec (c : DContext) (sec : Option Str) :
      Reachable c → Reachable (dmini_remove_section c sec).2
  | rem_key (c : DContext) (sec : Option Str) (k : Str) :
      Reachable c → Reachable (dmini_remove_key c sec k).2

/-- The nameless global section is present. -/
def has_global (c : DContext) : Prop :=
  none ∈ c.sections.map (fun s => s.name)

theorem get_or_create_preserves_global (ctx : DContext) (t : Option Str)
    (h : has_global ctx) : has_global (get_or_create_section ctx t).1 := by
  unfold get_or_create_section
  match find_sec_idx ctx.sections t with
  | some i => exact h
  | none => simp only [has_global, List.map_append, List.mem_append]; exact Or.inl h

theorem header_preserves_global (ctx : DContext) (cur : Option Nat) (rest : Str)
    (h : has_global ctx) : has_global (header_line_step ctx cur rest).2.1 := by
  unfold header_line_step
  match rest.dropWhile not_rb with
  | [] => exact h
  | _ :: _ => exact get_or_create_preserves_global ctx _ h

theorem kv_preserves_global (ctx : DContext) (cur : Option Nat) (line : Str)
    (h : has_global ctx) : has_global (kv_line_step ctx cur line).2.1 := by
  unfold kv_line_step
  match line.dropWhile not_eqs with
  | [] => exact h
  | _ :: after =>
    by_cases hk : trim_whitespace (line.takeWhile not_eqs) = []
    · simp only [if_pos hk]
      exact h
    · simp only [if_neg hk]
      match cur with
      | none => exact h
      | some i => simpa [has_global, set_pair_at_names] using h

theorem step_preserves_global (ctx : DContext) (cur : Option Nat) (l : Str)
    (h : has_global ctx) : has_global (parse_line_step ctx cur l).2.1 := by
  unfold parse_line_step
  match htl : trim_whitespace l with
  | [] => exact h
  | c :: rest =>
    by_cases hc : c = ';' ∨ c = '#'
    · simp only [if_pos hc]
      exact h
    · simp only [if_neg hc]
      by_cases hb : c = '['
      · simp only [if_pos hb]
        exact header_preserves_global ctx cur rest h
      · simp only [if_neg hb]
        exact kv_preserves_global ctx cur (c :: rest) h

theorem parse_lines_preserve (P : DContext → Prop)
    (hstep : ∀ ctx cur l, P ctx → P (parse_line_step ctx cur l).2.1) :
    ∀ (fuel : Nat) (s : Str) (ctx : DContext) (cur : Option Nat),
      P ctx → P (parse_lines fuel ctx cur s).2 := by
  intro fuel
  induction fuel with
  | zero =>
    intro s ctx cur hP
    match s with
    | [] => exact hP
    | _ :: _ => exact hP
  | succ f ih =>
    intro s ctx cur hP
    match s with
    | [] => exact hP
    | c :: r =>
      simp only [parse_lines]
      split
      · exact ih _ _ _ (hstep ctx cur (break_line (c :: r)).1 hP)
      · exact hstep ctx cur (break_line (c :: r)).1 hP

theorem remove_first_named_preserves_nameless (ss : List DSection) (t : Str)
    (s : DSection) (hmem : s ∈ ss) (hname : s.name = none) :
    ∀ ss2, remove_first_named ss t = some ss2 → s ∈ ss2 := by
  induction ss with
  | nil => intro ss2 hr; cases hr
  | cons s0 rest ih =>
    intro ss2 hr
    match hs0 : s0.name with
    | some n =>
      simp only [remove_first_named, hs0] at hr
      by_cases hn : n = t
      · rw [if_pos hn] at hr
        injection hr with h2
        subst h2
        rcases List.mem_cons.mp hmem with he | hm
        · rw [he] at hname; rw [hname] at hs0; cases hs0
        · exact hm
      · rw [if_neg hn] at hr
        match hrec : remove_first_named rest t with
        | none => rw [hrec] at hr; cases hr
        | some r2 =>
          rw [hrec] at hr
          simp only [Option.map_some'] at hr
          injection hr with h2
          subst h2
          rcases List.mem_cons.mp hmem with he | hm
          · exact List.mem_cons.mpr (Or.inl he)
          · exact List.mem_cons.mpr (Or.inr (ih hm r2 hrec))
    | none =>
      simp only [remove_first_named, hs0] at hr
      match hrec : remove_first_named rest t with
      | none => rw [hrec] at hr; cases hr
      | some r2 =>
        rw [hrec] at hr
        simp only [Option.map_some'] at hr
        injection hr with h2
        subst h2
        rcases List.mem_cons.mp hmem with he | hm
        · exact List.mem_cons.mpr (Or.inl he)
        · exact List.mem_cons.mpr (Or.inr (ih hm r2 hrec))

theorem remove_first_named_preserves_global (ss : List DSection) (t : Str)
    (h : none ∈ ss.map (fun s => s.name)) :
    ∀ ss2, remove_first_named ss t = some ss2 → none ∈ ss2.map (fun s => s.name) := by
  intro ss2 hr
  rcases List.mem_map.mp h with ⟨s, hmem, hname⟩
  exact List.mem_map.mpr ⟨s, remove_first_named_preserves_nameless ss t s hmem hname ss2 hr, hname⟩

theorem remove_key_in_sections_names (ss : List DSection) (t : Option Str) (k : Str) :
    (remove_key_in_sections ss t k).2.map (fun s => s.name) = ss.map (fun s => s.name) := by
  induction ss with
  | nil => rfl
  | cons s rest ih =>
    by_cases hm : section_name_matches s.name t = true
    · simp only [remove_key_in_sections, hm, if_pos]
      match remove_first_pair s.pairs k with
      | some ps => simp
      | none => simp
    · simp only [remove_key_in_sections, hm, if_neg, not_false_iff]
      simp [ih]

theorem reachable_has_global (c : DContext) (h : Reachable c) : has_global c := by
  induction h with
  | create => simp [has_global, dmini_create]
  | parse c0 data _ ih =>
    exact parse_lines_preserve has_global step_preserves_global data.length data c0 _ ih
  | set_str c0 sec k v _ ih =>
    have h2 := get_or_create_preserves_global c0 sec ih
    simpa [dmini_set_string, has_global, set_pair_at_names] using h2
  | set_integer c0 sec k n _ ih =>
    have h2 := get_or_create_preserves_global c0 sec ih
    simpa [dmini_set_int, dmini_set_string, has_global, set_pair_at_names] using h2
  | rem_sec c0 sec _ ih =>
    match sec with
    | none => exact ih
    | some t =>
      match hr : remove_first_named c0.sections t with
      | some ss2 =>
        have he : (dmini_remove_section c0 (some t)).2 = ⟨ss2⟩ := by
          simp only [dmini_remove_section, hr]
        rw [he]
        exact remove_first_named_preserves_global c0.sections t ih ss2 hr
      | none =>
        have he : (dmini_remove_section c0 (some t)).2 = c0 := by
          simp only [dmini_remove_section, hr]
        rw [he]
        exact ih
  | rem_key c0 sec k _ ih =>
    simpa [dmini_remove_key, has_global, remove_key_in_sections_names] using ih

/-- Claim C4: every context reachable from dmini_create through
parse/set/remove operations still contains the nameless global section
(hence at least one section); dmini_remove_section returns
DMINI_ERR_INVALID on a NULL name leaving the context unchanged, and a
remove by (non-null) name never matches or removes a nameless section. -/
theorem claim_C4_global_invariant (c : DContext) (n : Str) (s : DSection) :
    (Reachable c → ∃ g ∈ c.sections, g.name = none) ∧
    (dmini_remove_section c none).1 = DMINI_ERR_INVALID ∧
    (dmini_remove_section c none).2 = c ∧
    (s ∈ c.sections → s.name = none → s ∈ (dmini_remove_section c (some n)).2.sections) := by
  refine ⟨fun hr => ?_, rfl, rfl, fun hmem hname => ?_⟩
  · have hg := reachable_has_global c hr
    rcases List.mem_map.mp hg with ⟨g, hgmem, hgname⟩
    exact ⟨g, hgmem, hgname⟩
  · match hrm : remove_first_named c.sections n with
    | some ss2 =>
      have he : (dmini_remove_section c (some n)).2 = ⟨ss2⟩ := by
        simp only [dmini_remove_section, hrm]
      rw [he]
      exact remove_first_named_preserves_nameless c.sections n s hmem hname ss2 hrm
    | none =>
      have he : (dmini_remove_section c (some n)).2 = c := by
        simp only [dmini_remove_section, hrm]
      rw [he]
      exact hmem

theorem claim_C4_global_invariant_witness :
    (∃ g ∈ dmini_create.sections, g.name = none) ∧
    (⟨none, []⟩ : DSection) ∈ (dmini_remove_section dmini_create (some ['x'])).2.sections :=
  ⟨(claim_C4_global_invariant dmini_create ['x'] ⟨none, []⟩).1 Reachable.create,
   (claim_C4_global_invariant dmini_create ['x'] ⟨none, []⟩).2.2.2 (by decide) rfl⟩

theorem step_ok_of_some (ctx : DContext) (i : Nat) (l : Str) :
    (parse_line_step ctx (some i) l).1 = DMINI_OK ∧
    ∃ j, (parse_line_step ctx (some i) l).2.2 = some j := by
  match htl : trim_whitespace l with
  | [] =>
    have he : parse_line_step ctx (some i) l = (DMINI_OK, ctx, some i) := by
      simp [parse_line_step, htl]
    rw [he]
    exact ⟨rfl, i, rfl⟩
  | c :: rest =>
    by_cases hc : c = ';' ∨ c = '#'
    · have he : parse_line_step ctx (some i) l = (DMINI_OK, ctx, some i) := by
        simp [parse_line_step, htl, hc]
      rw [he]
      exact ⟨rfl, i, rfl⟩
    · by_cases hb : c = '['
      · match hdw : rest.dropWhile not_rb with
        | [] =>
          have he : parse_line_step ctx (some i) l = (DMINI_OK, ctx, some i) := by
            simp [parse_line_step, htl, hc, hb, header_line_step, hdw]
          rw [he]
          exact ⟨rfl, i, rfl⟩
        | _ :: _ =>
          have he : parse_line_step ctx (some i) l =
              (DMINI_OK,
               (get_or_create_section ctx
                 (some (trim_whitespace (rest.takeWhile not_rb)))).1,
               some (get_or_create_section ctx
                 (some (trim_whitespace (rest.takeWhile not_rb)))).2) := by
            simp [parse_line_step, htl, hc, hb, header_line_step, hdw]
          rw [he]
          exact ⟨rfl, _, rfl⟩
      · match hdw : (c :: rest).dropWhile not_eqs with
        | [] =>
          have he : parse_line_step ctx (some i) l = (DMINI_OK, ctx, some i) := by
            simp [parse_line_step, htl, hc, hb, kv_line_step, hdw]
          rw [he]
          exact ⟨rfl, i, rfl⟩
        | _ :: after =>
          by_cases hk : trim_whitespace ((c :: rest).takeWhile not_eqs) = []
          · have he : parse_line_step ctx (some i) l = (DMINI_OK, ctx, some i) := by
              simp [parse_line_step, htl, hc, hb, kv_line_step, hdw, hk]
            rw [he]
            exact ⟨rfl, i, rfl⟩
          · have he : parse_line_step ctx (some i) l =
                (DMINI_OK,
                 ⟨set_pair_at ctx.sections i
                   (trim_whitespace ((c :: rest).takeWhile not_eqs))
                   (trim_whitespace after)⟩,
                 some i) := by
              simp [parse_line_step, htl, hc, hb, kv_line_step, hdw, hk]
            rw [he]
            exact ⟨rfl, i, rfl⟩

theorem parse_lines_ok : ∀ (fuel : Nat) (s : Str), s.length ≤ fuel →
    ∀ (ctx : DContext) (i : Nat), (parse_lines fuel ctx (some i) s).1 = DMINI_OK := by
  intro fuel
  induction fuel with
  | zero =>
    intro s hs ctx i
    have hnil : s = [] := List.length_eq_zero.mp (Nat.le_zero.mp hs)
    rw [hnil]
    rfl
  | succ f ih =>
    intro s hs ctx i
    match s with
    | [] => rfl
    | c :: r =>
      simp only [parse_lines]
      obtain ⟨hok, j, hj⟩ := step_ok_of_some ctx i (break_line (c :: r)).1
      rw [if_pos hok, hj]
      have hlt := break_line_rest_lt (c :: r) (by simp)
      have hle : (break_line (c :: r)).2.length ≤ f := by
        simp only [List.length_cons] at hlt hs
        omega
      exact ih (break_line (c :: r)).2 hle _ j

/-- Claim C6: dmini_parse_string tolerates malformed lines: a trimmed
line starting with '[' but containing no closing ']' is ignored and the
current section is unchanged; a non-comment line with no '=' is ignored;
a line whose trimmed key before the '=' is empty adds no pair; and on a
context with at least one section (as every created context has) parsing
always returns DMINI_OK with the whole input processed. -/
theorem claim_C6_parse_tolerance (ctx : DContext) (cur : Option Nat)
    (data rawline rest : Str) (c : Char) :
    (ctx.sections ≠ [] → (dmini_parse_string ctx data).1 = DMINI_OK) ∧
    (trim_whitespace rawline = '[' :: rest → (∀ x ∈ rest, x ≠ ']') →
      parse_line_step ctx cur rawline = (DMINI_OK, ctx, cur)) ∧
    (trim_whitespace rawline = c :: rest → ¬(c = ';' ∨ c = '#') → c ≠ '[' →
      (∀ x ∈ c :: rest, x ≠ '=') →
      parse_line_step ctx cur rawline = (DMINI_OK, ctx, cur)) ∧
    (trim_whitespace rawline = c :: rest → ¬(c = ';' ∨ c = '#') → c ≠ '[' →
      trim_whitespace ((c :: rest).takeWhile not_eqs) = [] →
      parse_line_step ctx cur rawline = (DMINI_OK, ctx, cur)) := by
  refine ⟨fun hne => ?_, fun htrim hnob => ?_, fun htrim hc hb hnoeq => ?_,
    fun htrim hc hb hkey => ?_⟩
  · simp only [dmini_parse_string, if_neg hne]
    exact parse_lines_ok data.length data (Nat.le_refl _) ctx 0
  · have hdrop : rest.dropWhile not_rb = [] := by
      rw [List.dropWhile_eq_nil_iff]
      intro x hx
      simpa [not_rb] using hnob x hx
    simp [parse_line_step, htrim, header_line_step, hdrop]
  · have hdrop : (c :: rest).dropWhile not_eqs = [] := by
      rw [List.dropWhile_eq_nil_iff]
      intro x hx
      simpa [not_eqs] using hnoeq x hx
    simp [parse_line_step, htrim, hc, hb, kv_line_step, hdrop]
  · match hdw : (c :: rest).dropWhile not_eqs with
    | [] => simp [parse_line_step, htrim, hc, hb, kv_line_step, hdw]
    | _ :: after => simp [parse_line_step, htrim, hc, hb, kv_line_step, hdw, hkey]

theorem claim_C6_parse_tolerance_witness :
    (dmini_parse_string dmini_create
      ['[', 'o', 'o', 'p', 's', '\n', 'n', 'o', 'e', 'q', '\n', '=', 'v', '\n']).1 =
      DMINI_OK :=
  (claim_C6_parse_tolerance dmini_create none
    ['[', 'o', 'o', 'p', 's', '\n', 'n', 'o', 'e', 'q', '\n', '=', 'v', '\n']
    [] [] 'x').1 (by decide)

theorem dropWhile_eq_self_of_head (p : Char → Bool) (s : Str)
    (hh : ∀ c, s.head? = some c → p c = false) : s.dropWhile p = s := by
  match s with
  | [] => rfl
  | c :: t =>
    have hc := hh c rfl
    simp [List.dropWhile_cons, hc]

theorem trim_whitespace_eq_self (s : Str)
    (hh : ∀ c, s.head? = some c → isWs c = false)
    (hl : ∀ c, s.getLast? = some c → isWs c = false) :
    trim_whitespace s = s := by
  unfold trim_whitespace
  rw [dropWhile_eq_self_of_head isWs s hh]
  rw [dropWhile_eq_self_of_head isWs s.reverse (fun c hc => hl c (by rwa [List.head?_reverse] at hc))]
  exact List.reverse_reverse s

theorem trim_whitespace_all_ws (w : Str) (h : ∀ c ∈ w, isWs c = true) :
    trim_whitespace w = [] := by
  unfold trim_whitespace
  rw [List.dropWhile_eq_nil_iff.mpr h]
  rfl

theorem takeWhile_append_stop (p : Char → Bool) (xs : Str) (c : Char) (ys : Str)
    (hxs : ∀ x ∈ xs, p x = true) (hc : p c = false) :
    (xs ++ c :: ys).takeWhile p = xs := by
  induction xs with
  | nil => simp [List.takeWhile_cons, hc]
  | cons x t ih =>
    have hx := hxs x (by simp)
    simp only [List.cons_append, List.takeWhile_cons, hx, if_true]
    rw [ih (fun y hy => hxs y (by simp [hy]))]

theorem dropWhile_append_stop (p : Char → Bool) (xs : Str) (c : Char) (ys : Str)
    (hxs : ∀ x ∈ xs, p x = true) (hc : p c = false) :
    (xs ++ c :: ys).dropWhile p = c :: ys := by
  induction xs with
  | nil => simp [List.dropWhile_cons, hc]
  | cons x t ih =>
    have hx := hxs x (by simp)
    simp only [List.cons_append, List.dropWhile_cons, hx, if_true]
    exact ih (fun y hy => hxs y (by simp [hy]))

/-- Claim C10: a header line whose brackets enclose only whitespace
switches the current section to a section named by the empty string,
which is distinct from the nameless global section: a some-named section
never matches the NULL section lookup; concretely, parsing "[]\nk=v" on a
fresh context stores k under the ""-named section, leaves the global
section empty, makes has_section("") true, and the key is not reachable
with section = NULL while it is reachable with section = "". -/
theorem claim_C10_empty_header (ctx : DContext) (cur : Option Nat) (w : Str) :
    ((∀ c ∈ w, isWs c = true) →
      parse_line_step ctx cur (('[' :: w) ++ [']']) =
        (DMINI_OK, (get_or_create_section ctx (some [])).1,
         some (get_or_create_section ctx (some [])).2)) ∧
    (∀ x : Str, section_name_matches (some x) none = false) ∧
    dmini_parse_string dmini_create ['[', ']', '\n', 'k', '=', 'v'] =
      (DMINI_OK, ⟨[⟨none, []⟩, ⟨some [], [⟨['k'], ['v']⟩]⟩]⟩) ∧
    dmini_has_section (some ⟨[⟨none, []⟩, ⟨some [], [⟨['k'], ['v']⟩]⟩]⟩) (some []) = true ∧
    dmini_get_string (some ⟨[⟨none, []⟩, ⟨some [], [⟨['k'], ['v']⟩]⟩]⟩) none (some ['k'])
      none = none ∧
    dmini_get_string (some ⟨[⟨none, []⟩, ⟨some [], [⟨['k'], ['v']⟩]⟩]⟩) (some [])
      (some ['k']) none = some ['v'] := by
  refine ⟨fun hw => ?_, fun x => rfl, by decide, by decide, by decide, by decide⟩
  have hhead : ∀ c, (('[' :: w) ++ [']']).head? = some c → isWs c = false := by
    intro c hc
    simp only [List.cons_append, List.head?_cons, Option.some.injEq] at hc
    subst hc
    decide
  have hlast : ∀ c, (('[' :: w) ++ [']']).getLast? = some c → isWs c = false := by
    intro c hc
    rw [List.getLast?_concat] at hc
    injection hc with hc2
    subst hc2
    decide
  have htrim := trim_whitespace_eq_self _ hhead hlast
  have hwp : ∀ x ∈ w, not_rb x = true := by
    intro x hx
    have hxw := hw x hx
    unfold not_rb
    simp only [decide_eq_true_eq]
    intro he
    subst he
    exact absurd hxw (by decide)
  have hdw : (w ++ [']']).dropWhile not_rb = [']'] :=
    dropWhile_append_stop not_rb w ']' [] hwp (by decide)
  have htw : (w ++ [']']).takeWhile not_rb = w :=
    takeWhile_append_stop not_rb w ']' [] hwp (by decide)
  have hname : trim_whitespace w = [] := trim_whitespace_all_ws w hw
  rw [List.cons_append] at htrim
  simp [parse_line_step, htrim, header_line_step, hdw, htw, hname]

theorem claim_C10_empty_header_witness :
    parse_line_step dmini_create (some 0) (('[' :: [' ']) ++ [']']) =
      (DMINI_OK, (get_or_create_section dmini_create (some [])).1,
       some (get_or_create_section dmini_create (some [])).2) :=
  (claim_C10_empty_header dmini_create (some 0) [' ']).1 (by decide)

/-- Key restriction for the amended round-trip claim: non-empty, free of
newline, carriage return and '=', not starting with '[', ';', '#', and no
whitespace at either end. -/
def good_key (k : Str) : Bool :=
  !k.isEmpty &&
  k.all (fun c => c ≠ '\n' && c ≠ '\r' && c ≠ '=') &&
  (match k.head? with
   | some c => !isWs c && c ≠ '[' && c ≠ ';' && c ≠ '#'
   | none => true) &&
  (match k.getLast? with
   | some c => !isWs c
   | none => true)

/-- Value restriction of the round-trip claim: free of newline, carriage
return and '=', and no whitespace at either end (the empty value is
allowed). -/
def good_val (v : Str) : Bool :=
  v.all (fun c => c ≠ '\n' && c ≠ '\r' && c ≠ '=') &&
  (match v.head? with
   | some c => !isWs c
   | none => true) &&
  (match v.getLast? with
   | some c => !isWs c
   | none => true)

/-- Section-name restriction for the amended round-trip claim: free of
newline, carriage return and ']', and no whitespace at either end (the
empty name is allowed). -/
def good_name (n : Str) : Bool :=
  n.all (fun c => c ≠ '\n' && c ≠ '\r' && c ≠ ']') &&
  (match n.head? with
   | some c => !isWs c
   | none => true) &&
  (match n.getLast? with
   | some c => !isWs c
   | none => true)

theorem good_key_spec (k : Str) (h : good_key k = true) :
    k ≠ [] ∧ (∀ c ∈ k, c ≠ '\n' ∧ c ≠ '\r' ∧ c ≠ '=') ∧
    (∀ c, k.head? = some c → isWs c = false ∧ c ≠ '[' ∧ c ≠ ';' ∧ c ≠ '#') ∧
    (∀ c, k.getLast? = some c → isWs c = false) := by
  simp only [good_key, Bool.and_eq_true, Bool.not_eq_true', List.all_eq_true,
    List.isEmpty_eq_false_iff_exists_mem] at h
  obtain ⟨⟨⟨hne, hall⟩, hhead⟩, hlast⟩ := h
  refine ⟨?_, ?_, ?_, ?_⟩
  · rcases hne with ⟨x, hx⟩
    intro he
    rw [he] at hx
    cases hx
  · intro c hc
    have := hall c hc
    simp only [Bool.and_eq_true, decide_eq_true_eq] at this
    exact ⟨this.1.1, this.1.2, this.2⟩
  · intro c hc
    rw [hc] at hhead
    simp only [Bool.and_eq_true, Bool.not_eq_true', decide_eq_true_eq] at hhead
    exact ⟨hhead.1.1.1, hhead.1.1.2, hhead.1.2, hhead.2⟩
  · intro c hc
    rw [hc] at hlast
    simpa using hlast

theorem good_val_spec (v : Str) (h : good_val v = true) :
    (∀ c ∈ v, c ≠ '\n' ∧ c ≠ '\r' ∧ c ≠ '=') ∧
    (∀ c, v.head? = some c → isWs c = false) ∧
    (∀ c, v.getLast? = some c → isWs c = false) := by
  simp only [good_val, Bool.and_eq_true, List.all_eq_true] at h
  obtain ⟨⟨hall, hhead⟩, hlast⟩ := h
  refine ⟨?_, ?_, ?_⟩
  · intro c hc
    have := hall c hc
    simp only [Bool.and_eq_true, decide_eq_true_eq] at this
    exact ⟨this.1.1, this.1.2, this.2⟩
  · intro c hc
    rw [hc] at hhead
    simpa using hhead
  · intro c hc
    rw [hc] at hlast
    simpa using hlast

theorem good_name_spec (n : Str) (h : good_name n = true) :
    (∀ c ∈ n, c ≠ '\n' ∧ c ≠ '\r' ∧ c ≠ ']') ∧
    (∀ c, n.head? = some c → isWs c = false) ∧
    (∀ c, n.getLast? = some c → isWs c = false) := by
  simp only [good_name, Bool.and_eq_true, List.all_eq_true] at h
  obtain ⟨⟨hall, hhead⟩, hlast⟩ := h
  refine ⟨?_, ?_, ?_⟩
  · intro c hc
    have := hall c hc
    simp only [Bool.and_eq_true, decide_eq_true_eq] at this
    exact ⟨this.1.1, this.1.2, this.2⟩
  · intro c hc
    rw [hc] at hhead
    simpa using hhead
  · intro c hc
    rw [hc] at hlast
    simpa using hlast

theorem dec_digits_mem : ∀ (n : Nat), ∀ c ∈ dec_digits n, '0' ≤ c ∧ c ≤ '9' := by
  intro n
  induction n using Nat.strong_induction_on with
  | _ n ih =>
    intro c hc
    rw [dec_digits] at hc
    by_cases hn : n = 0
    · rw [dif_pos hn] at hc
      cases hc
    · rw [dif_neg hn] at hc
      rcases List.mem_append.mp hc with hm | hm
      · exact ih (n / 10) (Nat.div_lt_self (Nat.pos_of_ne_zero hn) (by decide)) c hm
      · have hd : n % 10 < 10 := Nat.mod_lt n (by decide)
        have hce : c = Nat.digitChar (n % 10) := by simpa using hm
        subst hce
        interval_cases h : n % 10 <;> decide

theorem digit_no_bad (c : Char) (h0 : '0' ≤ c) (h9 : c ≤ '9') :
    isWs c = false ∧ c ≠ '\n' ∧ c ≠ '\r' ∧ c ≠ '=' := by
  refine ⟨?_, fun he => ?_, fun he => ?_, fun he => ?_⟩
  · by_contra hws
    simp only [Bool.not_eq_false] at hws
    have hcases : ((c = ' ' ∨ c = '\t') ∨ c = '\r') ∨ c = '\n' := by
      simpa [isWs, decide_eq_true_eq] using hws
    rcases hcases with ((h | h) | h) | h <;> (subst h; exact absurd h0 (by decide))
  · subst he; exact absurd h0 (by decide)
  · subst he; exact absurd h0 (by decide)
  · subst he; exact absurd h9 (by decide)

theorem dec_digits_ne_nil (n : Nat) (hn : n ≠ 0) : dec_digits n ≠ [] := by
  rw [dec_digits, dif_neg hn]
  simp

theorem nat_digits_good (n : Nat) :
    ∀ c ∈ (if n = 0 then ['0'] else dec_digits n), '0' ≤ c ∧ c ≤ '9' := by
  intro c hc
  by_cases hn : n = 0
  · rw [if_pos hn] at hc
    have : c = '0' := by simpa using hc
    subst this
    exact ⟨by decide, by decide⟩
  · rw [if_neg hn] at hc
    exact dec_digits_mem n c hc

theorem int_to_decimal_good (z : Int) : good_val (int_to_decimal z) = true := by
  have hdig : ∀ (m : Nat), good_val (if m = 0 then ['0'] else dec_digits m) = true := by
    intro m
    have hall := nat_digits_good m
    have hne : (if m = 0 then ['0'] else dec_digits m) ≠ [] := by
      by_cases hm : m = 0
      · simp [hm]
      · simpa [hm] using dec_digits_ne_nil m hm
    simp only [good_val, Bool.and_eq_true, List.all_eq_true]
    refine ⟨⟨?_, ?_⟩, ?_⟩
    · intro c hc
      obtain ⟨h0, h9⟩ := hall c hc
      obtain ⟨_, h1, h2, h3⟩ := digit_no_bad c h0 h9
      simp [h1, h2, h3]
    · match hh : (if m = 0 then ['0'] else dec_digits m).head? with
      | none => simp
      | some c =>
        obtain ⟨h0, h9⟩ := hall c (List.mem_of_mem_head? hh)
        simpa using (digit_no_bad c h0 h9).1
    · match hh : (if m = 0 then ['0'] else dec_digits m).getLast? with
      | none => simp
      | some c =>
        obtain ⟨h0, h9⟩ := hall c (List.mem_of_mem_getLast? hh)
        simpa using (digit_no_bad c h0 h9).1
  unfold int_to_decimal
  by_cases hz : z < 0
  · rw [if_pos hz]
    have h2 := hdig z.natAbs
    simp only [good_val, Bool.and_eq_true, List.all_eq_true] at h2 ⊢
    obtain ⟨⟨hall, _⟩, hlast⟩ := h2
    have hne : (if z.natAbs = 0 then ['0'] else dec_digits z.natAbs) ≠ [] := by
      by_cases hm : z.natAbs = 0
      · simp [hm]
      · simpa [hm] using dec_digits_ne_nil z.natAbs hm
    obtain ⟨x, t, hxt⟩ := List.exists_cons_of_ne_nil hne
    refine ⟨⟨?_, ?_⟩, ?_⟩
    · intro c hc
      rcases List.mem_cons.mp hc with he | hm
      · subst he; decide
      · exact hall c hm
    · rfl
    · rw [hxt, List.getLast?_cons_cons]
      rw [hxt] at hlast
      exact hlast
  · rw [if_neg hz]
    exact hdig z.natAbs

/-- Restriction on the section argument of a set operation: NULL (global)
or a good name. -/
def good_sec : Option Str → Bool
  | none => true
  | some n => good_name n

/-- Models "populated purely through set_string/set_int" with the amended
character restrictions on section names, keys and values. -/
inductive BuiltC : DContext → Prop
  | fresh : BuiltC dmini_create
  | set_str (c : DContext) (sec : Option Str) (k v : Str) :
      BuiltC c → good_sec sec = true → good_key k = true → good_val v = true →
      BuiltC (dmini_set_string c sec k v)
  | set_integer (c : DContext) (sec : Option Str) (k : Str) (z : Int) :
      BuiltC c → good_sec sec = true → good_key k = true →
      BuiltC (dmini_set_int c sec k z)

/-- Pair lists of built models: distinct keys, all keys and values within
the round-trip character restrictions. -/
def GoodPairs (ps : List DPair) : Prop :=
  (ps.map (fun p => p.key)).Nodup ∧
  ∀ p ∈ ps, good_key p.key = true ∧ good_val p.value = true

/-- Structure of built models: global section first, every other section
named with a good name, no duplicate names, all pairs good. -/
def WFC (c : DContext) : Prop :=
  (∃ g rest, c.sections = ⟨none, g⟩ :: rest ∧ ∀ s ∈ rest, ∃ n, s.name = some n) ∧
  (c.sections.map (fun s => s.name)).Nodup ∧
  ∀ s ∈ c.sections, GoodPairs s.pairs ∧ ∀ n, s.name = some n → good_name n = true

theorem find_pair_none_append (ps : List DPair) (k v : Str)
    (h : find_pair ps k = none) : set_pair_in_pairs ps k v = ps ++ [⟨k, v⟩] := by
  induction ps with
  | nil => rfl
  | cons p rest ih =>
    simp only [find_pair] at h
    by_cases hp : p.key = k
    · rw [if_pos hp] at h
      cases h
    · rw [if_neg hp] at h
      simp [set_pair_in_pairs, hp, ih h]

theorem find_pair_none_not_mem (ps : List DPair) (k : Str)
    (h : find_pair ps k = none) : k ∉ ps.map (fun p => p.key) := by
  induction ps with
  | nil => simp
  | cons p rest ih =>
    simp only [find_pair] at h
    by_cases hp : p.key = k
    · rw [if_pos hp] at h
      cases h
    · rw [if_neg hp] at h
      simp only [List.map_cons, List.mem_cons]
      rintro (he | hm)
      · exact hp he.symm
      · exact ih h hm

theorem mem_set_pair_in_pairs (ps : List DPair) (k v : Str) (q : DPair)
    (h : q ∈ set_pair_in_pairs ps k v) : q ∈ ps ∨ q = ⟨k, v⟩ := by
  induction ps with
  | nil =>
    simp only [set_pair_in_pairs] at h
    rcases List.mem_singleton.mp h with he
    exact Or.inr he
  | cons p rest ih =>
    by_cases hp : p.key = k
    · simp only [set_pair_in_pairs, if_pos hp] at h
      rcases List.mem_cons.mp h with he | hm
      · right
        rw [he, hp]
      · exact Or.inl (List.mem_cons.mpr (Or.inr hm))
    · simp only [set_pair_in_pairs, if_neg hp] at h
      rcases List.mem_cons.mp h with he | hm
      · exact Or.inl (List.mem_cons.mpr (Or.inl he))
      · rcases ih hm with hin | hnew
        · exact Or.inl (List.mem_cons.mpr (Or.inr hin))
        · exact Or.inr hnew

theorem good_pairs_set (ps : List DPair) (k v : Str) (hps : GoodPairs ps)
    (hk : good_key k = true) (hv : good_val v = true) :
    GoodPairs (set_pair_in_pairs ps k v) := by
  constructor
  · match hf : find_pair ps k with
    | some p =>
      rw [set_pair_in_pairs_keys ps k v (by rw [hf]; rfl)]
      exact hps.1
    | none =>
      rw [find_pair_none_append ps k v hf]
      simp only [List.map_append, List.map_cons, List.map_nil]
      rw [List.nodup_append]
      refine ⟨hps.1, by simp, fun a ha hb => ?_⟩
      have ha2 : a = k := by simpa using hb
      exact find_pair_none_not_mem ps k hf (ha2 ▸ ha)
  · intro q hq
    rcases mem_set_pair_in_pairs ps k v q hq with hin | hnew
    · exact hps.2 q hin
    · rw [hnew]
      exact ⟨hk, hv⟩

theorem mem_set_pair_at (ss : List DSection) (i : Nat) (k v : Str) (s' : DSection)
    (h : s' ∈ set_pair_at ss i k v) :
    s' ∈ ss ∨ ∃ s ∈ ss, s' = ⟨s.name, set_pair_in_pairs s.pairs k v⟩ := by
  induction ss generalizing i with
  | nil => cases h
  | cons s0 rest ih =>
    match i with
    | 0 =>
      simp only [set_pair_at] at h
      rcases List.mem_cons.mp h with he | hm
      · exact Or.inr ⟨s0, List.mem_cons.mpr (Or.inl rfl), he⟩
      · exact Or.inl (List.mem_cons.mpr (Or.inr hm))
    | j + 1 =>
      simp only [set_pair_at] at h
      rcases List.mem_cons.mp h with he | hm
      · exact Or.inl (List.mem_cons.mpr (Or.inl he))
      · rcases ih j hm with hin | ⟨s, hsmem, hs⟩
        · exact Or.inl (List.mem_cons.mpr (Or.inr hin))
        · exact Or.inr ⟨s, List.mem_cons.mpr (Or.inr hsmem), hs⟩

theorem find_sec_idx_none_no_match (ss : List DSection) (t : Option Str)
    (h : find_sec_idx ss t = none) :
    ∀ s ∈ ss, section_name_matches s.name t = false := by
  induction ss with
  | nil => intro s hs; cases hs
  | cons s0 rest ih =>
    simp only [find_sec_idx] at h
    by_cases hm : section_name_matches s0.name t = true
    · rw [if_pos hm] at h
      cases h
    · rw [if_neg hm] at h
      intro s hs
      rcases List.mem_cons.mp hs with he | hmem
      · rw [he]
        exact Bool.not_eq_true _ |>.mp hm
      · exact ih (by simpa using h) s hmem

theorem name_matches_false_ne (m : Option Str) (n : Str)
    (h : section_name_matches m (some n) = false) : m ≠ some n := by
  intro he
  rw [he] at h
  simp [section_name_matches] at h

theorem wfc_find_none_idx (c : DContext) (h : WFC c) :
    find_sec_idx c.sections none = some 0 := by
  obtain ⟨⟨g, rest, hsec, _⟩, _, _⟩ := h
  rw [hsec]
  simp [find_sec_idx, section_name_matches]

theorem wf_set_string (c : DContext) (sec : Option Str) (k v : Str)
    (hc : WFC c) (hsec : good_sec sec = true) (hk : good_key k = true)
    (hv : good_val v = true) : WFC (dmini_set_string c sec k v) := by
  obtain ⟨⟨g, rest, hshape, hrest⟩, hnodup, hgood⟩ := hc
  match hf : find_sec_idx c.sections sec with
  | some i =>
    have he : dmini_set_string c sec k v = ⟨set_pair_at c.sections i k v⟩ := by
      simp only [dmini_set_string, get_or_create_section, hf]
    rw [he]
    refine ⟨?_, ?_, ?_⟩
    · rw [hshape]
      match i with
      | 0 => exact ⟨set_pair_in_pairs g k v, rest, rfl, hrest⟩
      | j + 1 =>
        refine ⟨g, set_pair_at rest j k v, rfl, ?_⟩
        intro s hs
        rcases mem_set_pair_at rest j k v s hs with hin | ⟨s0, hs0, hseq⟩
        · exact hrest s hin
        · rw [hseq]
          exact hrest s0 hs0
    · rw [set_pair_at_names c.sections i k v]
      exact hnodup
    · intro s hs
      rcases mem_set_pair_at c.sections i k v s hs with hin | ⟨s0, hs0, hseq⟩
      · exact hgood s hin
      · rw [hseq]
        obtain ⟨hgp, hnames⟩ := hgood s0 hs0
        exact ⟨good_pairs_set s0.pairs k v hgp hk hv, hnames⟩
  | none =>
    match sec with
    | none =>
      rw [wfc_find_none_idx c ⟨⟨g, rest, hshape, hrest⟩, hnodup, hgood⟩] at hf
      cases hf
    | some n =>
      have hgn : good_name n = true := hsec
      have he : dmini_set_string c (some n) k v =
          ⟨c.sections ++ [⟨some n, [⟨k, v⟩]⟩]⟩ := by
        simp only [dmini_set_string, get_or_create_section, hf]
        rw [set_pair_at_append_at_length]
        rfl
      rw [he]
      have hnotin : (some n : Option Str) ∉ c.sections.map (fun s => s.name) := by
        intro hmem
        rcases List.mem_map.mp hmem with ⟨s0, hs0, hname⟩
        exact name_matches_false_ne s0.name n
          (find_sec_idx_none_no_match c.sections (some n) hf s0 hs0) hname
      refine ⟨?_, ?_, ?_⟩
      · rw [hshape]
        refine ⟨g, rest ++ [⟨some n, [⟨k, v⟩]⟩], by simp, ?_⟩
        intro s hs
        rcases List.mem_append.mp hs with hin | hnew
        · exact hrest s hin
        · have : s = ⟨some n, [⟨k, v⟩]⟩ := by simpa using hnew
          rw [this]
          exact ⟨n, rfl⟩
      · simp only [List.map_append, List.map_cons, List.map_nil]
        rw [List.nodup_append]
        refine ⟨hnodup, by simp, fun a ha hb => ?_⟩
        have ha2 : a = some n := by simpa using hb
        exact hnotin (ha2 ▸ ha)
      · intro s hs
        rcases List.mem_append.mp hs with hin | hnew
        · exact hgood s hin
        · have : s = ⟨some n, [⟨k, v⟩]⟩ := by simpa using hnew
          rw [this]
          refine ⟨⟨by simp, ?_⟩, ?_⟩
          · intro p hp
            rw [List.mem_singleton.mp hp]
            exact ⟨hk, hv⟩
          · intro n2 hn2
            injection hn2 with hn3
            rw [← hn3]
            exact hgn

theorem builtc_wf (m : DContext) (h : BuiltC m) : WFC m := by
  induction h with
  | fresh =>
    refine ⟨⟨[], [], rfl, fun s hs => absurd hs (List.not_mem_nil s)⟩, ?_, ?_⟩
    · simp [dmini_create]
    · intro s hs
      have hss : s = ⟨none, []⟩ := by simpa [dmini_create] using hs
      rw [hss]
      exact ⟨⟨List.nodup_nil, fun p hp => absurd hp (List.not_mem_nil p)⟩,
        fun n hn => by cases hn⟩
  | set_str c sec k v _ hsec hk hv ih => exact wf_set_string c sec k v ih hsec hk hv
  | set_integer c sec k z _ hsec hk ih =>
    exact wf_set_string c sec k (int_to_decimal z) ih hsec hk (int_to_decimal_good z)

theorem parse_lines_fuel_mono : ∀ (f1 : Nat) (f2 : Nat) (s : Str) (ctx : DContext)
    (cur : Option Nat), s.length ≤ f1 → s.length ≤ f2 →
    parse_lines f1 ctx cur s = parse_lines f2 ctx cur s := by
  intro f1
  induction f1 with
  | zero =>
    intro f2 s ctx cur h1 h2
    have hnil : s = [] := List.length_eq_zero.mp (Nat.le_zero.mp h1)
    subst hnil
    match f2 with
    | 0 => rfl
    | g + 1 => rfl
  | succ g ih =>
    intro f2 s ctx cur h1 h2
    match s with
    | [] =>
      match f2 with
      | 0 => rfl
      | h + 1 => rfl
    | c :: r =>
      match f2 with
      | 0 => exact absurd h2 (by simp)
      | h + 1 =>
        simp only [parse_lines]
        have hlt := break_line_rest_lt (c :: r) (by simp)
        have hg : (break_line (c :: r)).2.length ≤ g := by
          simp only [List.length_cons] at hlt h1
          omega
        have hh : (break_line (c :: r)).2.length ≤ h := by
          simp only [List.length_cons] at hlt h2
          omega
        rw [ih h _ _ _ hg hh]

/-- The canonical run of the parser loop: fuel equal to the input length
(the fuel dmini_parse_string uses). -/
def run_parse (ctx : DContext) (cur : Option Nat) (s : Str) : Int × DContext :=
  parse_lines s.length ctx cur s

theorem run_parse_step (s : Str) (hne : s ≠ []) (ctx : DContext) (cur : Option Nat) :
    run_parse ctx cur s =
      (if (parse_line_step ctx cur (break_line s).1).1 = DMINI_OK then
        run_parse (parse_line_step ctx cur (break_line s).1).2.1
          (parse_line_step ctx cur (break_line s).1).2.2 (break_line s).2
      else ((parse_line_step ctx cur (break_line s).1).1,
        (parse_line_step ctx cur (break_line s).1).2.1)) := by
  match s with
  | [] => exact absurd rfl hne
  | c :: r =>
    show parse_lines (r.length + 1) ctx cur (c :: r) = _
    simp only [parse_lines]
    have hlt := break_line_rest_lt (c :: r) (by simp)
    have hle : (break_line (c :: r)).2.length ≤ r.length := by
      simp only [List.length_cons] at hlt
      omega
    by_cases hok : (parse_line_step ctx cur (break_line (c :: r)).1).1 = DMINI_OK
    · rw [if_pos hok, if_pos hok]
      exact parse_lines_fuel_mono r.length (break_line (c :: r)).2.length _ _ _ hle
        (Nat.le_refl _)
    · rw [if_neg hok, if_neg hok]

theorem break_line_append (l : Str) (rest : Str)
    (h : ∀ c ∈ l, c ≠ '\n' ∧ c ≠ '\r') :
    break_line (l ++ '\n' :: rest) = (l, drop_second_nl rest) := by
  induction l with
  | nil => simp [break_line]
  | cons x t ih =>
    obtain ⟨hx1, hx2⟩ := h x (by simp)
    have hih := ih (fun c hc => h c (by simp [hc]))
    have hcond : (x = '\n' || x = '\r') = false := by simp [hx1, hx2]
    rw [List.cons_append]
    simp only [break_line, hcond, Bool.false_eq_true, if_false, hih]

theorem drop_second_nl_id (s : Str)
    (h : ∀ c, s.head? = some c → c ≠ '\n' ∧ c ≠ '\r') : drop_second_nl s = s := by
  match s with
  | [] => rfl
  | c :: r =>
    obtain ⟨h1, h2⟩ := h c rfl
    simp [drop_second_nl, h1, h2]

theorem parse_line_step_to_kv (ctx : DContext) (cur : Option Nat) (rawline : Str)
    (c : Char) (rest : Str) (htrim : trim_whitespace rawline = c :: rest)
    (hc : ¬(c = ';' ∨ c = '#')) (hb : c ≠ '[') :
    parse_line_step ctx cur rawline = kv_line_step ctx cur (c :: rest) := by
  simp only [parse_line_step, htrim]
  rw [if_neg hc, if_neg hb]

theorem parse_line_step_to_header (ctx : DContext) (cur : Option Nat) (rawline : Str)
    (rest : Str) (htrim : trim_whitespace rawline = '[' :: rest) :
    parse_line_step ctx cur rawline = header_line_step ctx cur rest := by
  simp only [parse_line_step, htrim]
  rw [if_neg (by decide : ¬('[' = ';' ∨ '[' = '#'))]
  simp

theorem kv_line_step_eval (ctx : DContext) (i : Nat) (k v : Str)
    (hk : good_key k = true) (hv : good_val v = true) :
    kv_line_step ctx (some i) (k ++ '=' :: v) =
      (DMINI_OK, ⟨set_pair_at ctx.sections i k v⟩, some i) := by
  obtain ⟨hkne, hkall, hkhead, hklast⟩ := good_key_spec k hk
  obtain ⟨hvall, hvhead, hvlast⟩ := good_val_spec v hv
  have hkeqs : ∀ x ∈ k, not_eqs x = true := by
    intro x hx
    simp [not_eqs, (hkall x hx).2.2]
  have hdw : (k ++ '=' :: v).dropWhile not_eqs = '=' :: v :=
    dropWhile_append_stop not_eqs k '=' v hkeqs (by decide)
  have htw : (k ++ '=' :: v).takeWhile not_eqs = k :=
    takeWhile_append_stop not_eqs k '=' v hkeqs (by decide)
  have htrimk : trim_whitespace k = k :=
    trim_whitespace_eq_self k (fun c hc => (hkhead c hc).1) hklast
  have htrimv : trim_whitespace v = v := trim_whitespace_eq_self v hvhead hvlast
  simp only [kv_line_step, hdw, htw, htrimk, htrimv]
  rw [if_neg hkne]

theorem header_line_step_eval (ctx : DContext) (cur : Option Nat) (n : Str)
    (hn : good_name n = true) :
    header_line_step ctx cur (n ++ [']']) =
      (DMINI_OK, (get_or_create_section ctx (some n)).1,
       some (get_or_create_section ctx (some n)).2) := by
  obtain ⟨hnall, hnhead, hnlast⟩ := good_name_spec n hn
  have hnrb : ∀ x ∈ n, not_rb x = true := by
    intro x hx
    simp [not_rb, (hnall x hx).2.2]
  have hdw : (n ++ [']']).dropWhile not_rb = ']' :: [] :=
    dropWhile_append_stop not_rb n ']' [] hnrb (by decide)
  have htw : (n ++ [']']).takeWhile not_rb = n :=
    takeWhile_append_stop not_rb n ']' [] hnrb (by decide)
  have htn : trim_whitespace n = n := trim_whitespace_eq_self n hnhead hnlast
  simp only [header_line_step, hdw, htw, htn]

theorem step_kv_line (ctx : DContext) (i : Nat) (k v : Str)
    (hk : good_key k = true) (hv : good_val v = true) :
    parse_line_step ctx (some i) (k ++ '=' :: v) =
      (DMINI_OK, ⟨set_pair_at ctx.sections i k v⟩, some i) := by
  obtain ⟨hkne, hkall, hkhead, hklast⟩ := good_key_spec k hk
  obtain ⟨hvall, hvhead, hvlast⟩ := good_val_spec v hv
  obtain ⟨kh, kt, hkc⟩ := List.exists_cons_of_ne_nil hkne
  have hhead : ∀ c, (k ++ '=' :: v).head? = some c → isWs c = false := by
    intro c hc
    rw [hkc] at hc
    simp only [List.cons_append, List.head?_cons, Option.some.injEq] at hc
    have hm : c ∈ k := by
      rw [hkc, ← hc]
      simp
    have := hkhead c (by rw [hkc, ← hc]; rfl)
    exact this.1
  have hlast : ∀ c, (k ++ '=' :: v).getLast? = some c → isWs c = false := by
    intro c hc
    match hv0 : v with
    | [] =>
      have h2 : (k ++ ['=']).getLast? = some '=' := List.getLast?_concat k
      rw [h2] at hc
      injection hc with hc2
      rw [← hc2]
      decide
    | vh :: vt =>
      rw [List.getLast?_append_of_ne_nil k (by simp)] at hc
      rw [List.getLast?_cons_cons] at hc
      exact hvlast c hc
  have htrim0 : trim_whitespace (k ++ '=' :: v) = k ++ '=' :: v :=
    trim_whitespace_eq_self _ hhead hlast
  have htrim : trim_whitespace (k ++ '=' :: v) = kh :: (kt ++ '=' :: v) := by
    rw [htrim0, hkc, List.cons_append]
  have hkhs := hkhead kh (by rw [hkc]; rfl)
  have hc2 : ¬(kh = ';' ∨ kh = '#') := by
    rintro (h | h)
    · exact hkhs.2.2.1 h
    · exact hkhs.2.2.2 h
  have hstep := parse_line_step_to_kv ctx (some i) (k ++ '=' :: v) kh (kt ++ '=' :: v)
    htrim hc2 hkhs.2.1
  rw [hstep]
  have hline : kh :: (kt ++ '=' :: v) = k ++ '=' :: v := by
    rw [hkc, List.cons_append]
  rw [hline]
  exact kv_line_step_eval ctx i k v hk hv

theorem step_header_line (ctx : DContext) (cur : Option Nat) (n : Str)
    (hn : good_name n = true) :
    parse_line_step ctx cur ('[' :: (n ++ [']'])) =
      (DMINI_OK, (get_or_create_section ctx (some n)).1,
       some (get_or_create_section ctx (some n)).2) := by
  obtain ⟨hnall, hnhead, hnlast⟩ := good_name_spec n hn
  have hhead : ∀ c, ('[' :: (n ++ [']'])).head? = some c → isWs c = false := by
    intro c hc
    injection hc with hc2
    rw [← hc2]
    decide
  have hlast : ∀ c, ('[' :: (n ++ [']'])).getLast? = some c → isWs c = false := by
    intro c hc
    have heq : '[' :: (n ++ [']']) = ('[' :: n) ++ [']'] := by rw [List.cons_append]
    rw [heq, List.getLast?_concat] at hc
    injection hc with hc2
    rw [← hc2]
    decide
  have htrim : trim_whitespace ('[' :: (n ++ [']'])) = '[' :: (n ++ [']']) :=
    trim_whitespace_eq_self _ hhead hlast
  rw [parse_line_step_to_header ctx cur _ (n ++ [']']) htrim]
  exact header_line_step_eval ctx cur n hn

/-- The effect of running the parser's set_pair over every pair of a list,
in order, against the section at index `i`. -/
def set_many_at (ctx : DContext) (i : Nat) (ps : List DPair) : DContext :=
  ps.foldl (fun c p => ⟨set_pair_at c.sections i p.key p.value⟩) ctx

theorem find_pair_append_single_none (acc : List DPair) (p : DPair) (k : Str)
    (h : find_pair acc k = none) (hne : p.key ≠ k) :
    find_pair (acc ++ [p]) k = none := by
  induction acc with
  | nil => simp [find_pair, hne]
  | cons a rest ih =>
    simp only [find_pair] at h
    by_cases ha : a.key = k
    · rw [if_pos ha] at h
      cases h
    · rw [if_neg ha] at h
      simp only [List.cons_append, find_pair, if_neg ha]
      exact ih h

theorem set_fold_pairs_append : ∀ (ps : List DPair) (acc : List DPair),
    (∀ p ∈ ps, find_pair acc p.key = none) →
    (ps.map (fun p => p.key)).Nodup →
    ps.foldl (fun a p => set_pair_in_pairs a p.key p.value) acc = acc ++ ps := by
  intro ps
  induction ps with
  | nil =>
    intro acc _ _
    simp
  | cons p tail ih =>
    intro acc hdisj hnodup
    simp only [List.foldl_cons]
    rw [find_pair_none_append acc p.key p.value (hdisj p (by simp))]
    have hpeta : (⟨p.key, p.value⟩ : DPair) = p := rfl
    rw [hpeta]
    simp only [List.map_cons, List.nodup_cons] at hnodup
    have hres := ih (acc ++ [p])
      (fun q hq => find_pair_append_single_none acc p q.key (hdisj q (by simp [hq]))
        (fun he => hnodup.1 (by rw [he]; exact List.mem_map.mpr ⟨q, hq, rfl⟩)))
      hnodup.2
    rw [hres, List.append_assoc]
    rfl

theorem set_many_at_append : ∀ (ps : List DPair) (cs : List DSection) (nm : Option Str)
    (acc : List DPair),
    set_many_at ⟨cs ++ [⟨nm, acc⟩]⟩ cs.length ps =
      ⟨cs ++ [⟨nm, ps.foldl (fun a p => set_pair_in_pairs a p.key p.value) acc⟩]⟩ := by
  intro ps
  induction ps with
  | nil => intro cs nm acc; rfl
  | cons p tail ih =>
    intro cs nm acc
    simp only [set_many_at, List.foldl_cons]
    have hstep : (⟨set_pair_at (⟨cs ++ [⟨nm, acc⟩]⟩ : DContext).sections cs.length
        p.key p.value⟩ : DContext) = ⟨cs ++ [⟨nm, set_pair_in_pairs acc p.key p.value⟩]⟩ := by
      show (⟨set_pair_at (cs ++ [⟨nm, acc⟩]) cs.length p.key p.value⟩ : DContext) = _
      rw [set_pair_at_append_at_length]
    rw [hstep]
    exact ih cs nm (set_pair_in_pairs acc p.key p.value)

theorem render_pairs_head_not_nl (ps : List DPair)
    (hgood : ∀ p ∈ ps, good_key p.key = true ∧ good_val p.value = true) :
    ∀ c, (render_pairs ps).head? = some c → c ≠ '\n' ∧ c ≠ '\r' := by
  intro c hc
  match ps with
  | [] => cases hc
  | p :: tail =>
    obtain ⟨hkne, hkall, _, _⟩ := good_key_spec p.key (hgood p (by simp)).1
    obtain ⟨kh, kt, hkc⟩ := List.exists_cons_of_ne_nil hkne
    simp only [render_pairs, hkc, List.cons_append, List.head?_cons,
      Option.some.injEq] at hc
    have hm : c ∈ p.key := by
      rw [hkc, ← hc]
      simp
    exact ⟨(hkall c hm).1, (hkall c hm).2.1⟩

theorem parse_pairs_block : ∀ (ps : List DPair), ps ≠ [] →
    (∀ p ∈ ps, good_key p.key = true ∧ good_val p.value = true) →
    ∀ (ctx : DContext) (i : Nat) (rest : Str),
    run_parse ctx (some i) (render_pairs ps ++ rest) =
      run_parse (set_many_at ctx i ps) (some i) (drop_second_nl rest) := by
  intro ps
  induction ps with
  | nil => intro h; exact absurd rfl h
  | cons p tail ih =>
    intro _ hgood ctx i rest
    obtain ⟨hpk, hpv⟩ := hgood p (by simp)
    have htext : render_pairs (p :: tail) ++ rest =
        (p.key ++ '=' :: p.value) ++ '\n' :: (render_pairs tail ++ rest) := by
      simp [render_pairs, List.append_assoc]
    have hNoNl : ∀ c ∈ (p.key ++ '=' :: p.value), c ≠ '\n' ∧ c ≠ '\r' := by
      intro c hc
      rcases List.mem_append.mp hc with hk2 | hv2
      · obtain ⟨_, hkall, _, _⟩ := good_key_spec p.key hpk
        exact ⟨(hkall c hk2).1, (hkall c hk2).2.1⟩
      · rcases List.mem_cons.mp hv2 with he | hm
        · rw [he]
          exact ⟨by decide, by decide⟩
        · obtain ⟨hvall, _, _⟩ := good_val_spec p.value hpv
          exact ⟨(hvall c hm).1, (hvall c hm).2.1⟩
    have hbl := break_line_append (p.key ++ '=' :: p.value) (render_pairs tail ++ rest) hNoNl
    rw [htext, run_parse_step _ (by simp), hbl]
    simp only
    rw [step_kv_line ctx i p.key p.value hpk hpv]
    rw [if_pos rfl]
    simp only
    match tail with
    | [] =>
      show run_parse _ (some i) (drop_second_nl ([] ++ rest)) = _
      rw [List.nil_append]
      rfl
    | q :: ts =>
      have hdnl : drop_second_nl (render_pairs (q :: ts) ++ rest) =
          render_pairs (q :: ts) ++ rest := by
        apply drop_second_nl_id
        intro c hc
        match hh : (render_pairs (q :: ts)).head? with
        | some c2 =>
          have : (render_pairs (q :: ts) ++ rest).head? = some c2 := by
            match hrp : render_pairs (q :: ts) with
            | [] => rw [hrp] at hh; cases hh
            | x :: xs =>
              rw [hrp] at hh
              injection hh with hh2
              rw [List.cons_append, List.head?_cons, hh2]
          rw [this] at hc
          injection hc with hc2
          rw [← hc2]
          exact render_pairs_head_not_nl (q :: ts) (fun r hr => hgood r (by simp [hr])) c2 hh
        | none =>
          have : render_pairs (q :: ts) = [] := List.head?_eq_none_iff.mp hh
          obtain ⟨hkne2, _, _, _⟩ := good_key_spec q.key (hgood q (by simp)).1
          obtain ⟨kh, kt, hkc2⟩ := List.exists_cons_of_ne_nil hkne2
          rw [render_pairs, hkc2] at this
          cases this
      rw [hdnl]
      have hres := ih (by simp) (fun r hr => hgood r (by simp [hr]))
        ⟨set_pair_at ctx.sections i p.key p.value⟩ i rest
      rw [hres]
      rfl

theorem find_sec_idx_none_of_names (ss : List DSection) (n : Str)
    (h : ∀ s2 ∈ ss, s2.name ≠ some n) : find_sec_idx ss (some n) = none := by
  induction ss with
  | nil => rfl
  | cons s rest ih =>
    have hm : section_name_matches s.name (some n) = false := by
      match hs : s.name with
      | none => rfl
      | some a =>
        have : a ≠ n := by
          intro he
          exact h s (by simp) (by rw [hs, he])
        simp [section_name_matches, this]
    simp only [find_sec_idx, hm, Bool.false_eq_true, if_false]
    rw [ih (fun s2 hs2 => h s2 (by simp [hs2]))]
    rfl

theorem drop_second_nl_render_pairs (ps : List DPair) (hne : ps ≠ [])
    (hgood : ∀ p ∈ ps, good_key p.key = true ∧ good_val p.value = true) (rest : Str) :
    drop_second_nl (render_pairs ps ++ rest) = render_pairs ps ++ rest := by
  match ps with
  | [] => exact absurd rfl hne
  | p :: tail =>
    apply drop_second_nl_id
    intro c hc
    obtain ⟨hkne, hkall, _, _⟩ := good_key_spec p.key (hgood p (by simp)).1
    obtain ⟨kh, kt, hkc⟩ := List.exists_cons_of_ne_nil hkne
    have hform : render_pairs (p :: tail) ++ rest =
        kh :: ((kt ++ '=' :: (p.value ++ '\n' :: render_pairs tail)) ++ rest) := by
      show (p.key ++ '=' :: (p.value ++ '\n' :: render_pairs tail)) ++ rest = _
      rw [hkc, List.cons_append, List.cons_append]
    rw [hform] at hc
    simp only [List.head?_cons, Option.some.injEq] at hc
    have hm : c ∈ p.key := by
      rw [hkc, ← hc]
      simp
    exact ⟨(hkall c hm).1, (hkall c hm).2.1⟩

theorem parse_sections_block : ∀ (todo : List DSection),
    (∀ s ∈ todo, ∃ n, s.name = some n ∧ good_name n = true) →
    (∀ s ∈ todo, GoodPairs s.pairs) →
    (todo.map (fun s => s.name)).Nodup →
    ∀ (ctx : DContext) (cur : Option Nat),
    (∀ s ∈ todo, ∀ s2 ∈ ctx.sections, s2.name ≠ s.name) →
    run_parse ctx cur (render_sections todo) = (DMINI_OK, ⟨ctx.sections ++ todo⟩) := by
  intro todo
  induction todo with
  | nil =>
    intro _ _ _ ctx cur _
    have h2 : (⟨ctx.sections ++ []⟩ : DContext) = ctx := by simp
    rw [h2]
    rfl
  | cons s todo2 ih =>
    intro hnames hpairs hnodup ctx cur hfresh
    obtain ⟨n, hn, hgn⟩ := hnames s (List.mem_cons.mpr (Or.inl rfl))
    simp only [List.map_cons, List.nodup_cons] at hnodup
    have hname_ne : ∀ s2 ∈ todo2, s2.name ≠ some n := by
      intro s2 hs2 he
      exact hnodup.1 (List.mem_map.mpr ⟨s2, hs2, by rw [he, ← hn]⟩)
    have hfindn : find_sec_idx ctx.sections (some n) = none := by
      apply find_sec_idx_none_of_names
      intro s2 hs2
      rw [← hn]
      exact hfresh s (List.mem_cons.mpr (Or.inl rfl)) s2 hs2
    have hgocs : get_or_create_section ctx (some n) =
        (⟨ctx.sections ++ [⟨some n, []⟩]⟩, ctx.sections.length) := by
      simp only [get_or_create_section, hfindn]
    have hNoNl : ∀ c ∈ '[' :: (n ++ [']']), c ≠ '\n' ∧ c ≠ '\r' := by
      intro c hc
      rcases List.mem_cons.mp hc with he | hm
      · rw [he]
        exact ⟨by decide, by decide⟩
      · rcases List.mem_append.mp hm with hn2 | he2
        · obtain ⟨hnall, _, _⟩ := good_name_spec n hgn
          exact ⟨(hnall c hn2).1, (hnall c hn2).2.1⟩
        · have h3 : c = ']' := by simpa using he2
          rw [h3]
          exact ⟨by decide, by decide⟩
    have htext : render_sections (s :: todo2) =
        ('[' :: (n ++ [']'])) ++ '\n' :: (render_pairs s.pairs ++
          ((if todo2 = [] then ([] : Str) else ['\n']) ++ render_sections todo2)) := by
      have h1 : render_sections (s :: todo2) =
          (match s.name with
           | some m => '[' :: (m ++ [']', '\n'])
           | none => [])
          ++ render_pairs s.pairs
          ++ (if s.name.isSome ∧ todo2 ≠ [] then ['\n'] else [])
          ++ render_sections todo2 := rfl
      rw [h1, hn]
      by_cases ht : todo2 = [] <;> simp [ht, List.append_assoc]
    have hbl := break_line_append ('[' :: (n ++ [']']))
      (render_pairs s.pairs ++
        ((if todo2 = [] then ([] : Str) else ['\n']) ++ render_sections todo2)) hNoNl
    rw [htext, run_parse_step _ (by simp), hbl]
    simp only
    rw [step_header_line ctx cur n hgn, hgocs]
    rw [if_pos rfl]
    simp only
    have hfresh2 : ∀ ps2 : List DPair, ∀ s' ∈ todo2,
        ∀ s2 ∈ (⟨ctx.sections ++ [⟨some n, ps2⟩]⟩ : DContext).sections, s2.name ≠ s'.name := by
      intro ps2 s' hs' s2 hs2
      rcases List.mem_append.mp hs2 with hin | hnew
      · exact hfresh s' (List.mem_cons.mpr (Or.inr hs')) s2 hin
      · have h4 : s2 = ⟨some n, ps2⟩ := by simpa using hnew
        rw [h4]
        intro he
        exact hname_ne s' hs' he.symm
    match hps : s.pairs with
    | [] =>
      simp only [render_pairs, List.nil_append]
      have hseq : s = (⟨some n, []⟩ : DSection) := by
        rw [← hn, ← hps]
      by_cases ht : todo2 = []
      · subst ht
        rw [hseq]
        rfl
      · rw [if_neg ht]
        have h5 : (['\n'] ++ render_sections todo2 : Str) = '\n' :: render_sections todo2 := rfl
        rw [h5]
        have hdnl : drop_second_nl ('\n' :: render_sections todo2) = render_sections todo2 := by
          simp [drop_second_nl]
        rw [hdnl]
        have hih := ih (fun s2 hs2 => hnames s2 (List.mem_cons.mpr (Or.inr hs2)))
          (fun s2 hs2 => hpairs s2 (List.mem_cons.mpr (Or.inr hs2))) hnodup.2
          ⟨ctx.sections ++ [⟨some n, []⟩]⟩ (some ctx.sections.length) (hfresh2 [])
        rw [hih, hseq]
        simp [List.append_assoc]
    | q :: qs =>
      have hgood2 : ∀ p ∈ q :: qs, good_key p.key = true ∧ good_val p.value = true := by
        intro p hp
        exact (hpairs s (List.mem_cons.mpr (Or.inl rfl))).2 p (by rw [hps]; exact hp)
      have hdnl0 := drop_second_nl_render_pairs (q :: qs) (by simp) hgood2
        ((if todo2 = [] then ([] : Str) else ['\n']) ++ render_sections todo2)
      rw [hdnl0]
      have hppb := parse_pairs_block (q :: qs) (by simp) hgood2
        ⟨ctx.sections ++ [⟨some n, []⟩]⟩ ctx.sections.length
        ((if todo2 = [] then ([] : Str) else ['\n']) ++ render_sections todo2)
      rw [hppb]
      have hkeys : ((q :: qs).map (fun p => p.key)).Nodup := by
        have := (hpairs s (List.mem_cons.mpr (Or.inl rfl))).1
        rw [hps] at this
        exact this
      have hsm : set_many_at ⟨ctx.sections ++ [⟨some n, []⟩]⟩ ctx.sections.length (q :: qs) =
          ⟨ctx.sections ++ [⟨some n, q :: qs⟩]⟩ := by
        rw [set_many_at_append]
        rw [set_fold_pairs_append (q :: qs) [] (fun p _ => rfl) hkeys]
        rw [List.nil_append]
      rw [hsm]
      have hseq : s = (⟨some n, q :: qs⟩ : DSection) := by
        rw [← hn, ← hps]
      by_cases ht : todo2 = []
      · subst ht
        rw [hseq]
        rfl
      · rw [if_neg ht]
        have h5 : (['\n'] ++ render_sections todo2 : Str) = '\n' :: render_sections todo2 := rfl
        rw [h5]
        have hdnl : drop_second_nl ('\n' :: render_sections todo2) = render_sections todo2 := by
          simp [drop_second_nl]
        rw [hdnl]
        have hih := ih (fun s2 hs2 => hnames s2 (List.mem_cons.mpr (Or.inr hs2)))
          (fun s2 hs2 => hpairs s2 (List.mem_cons.mpr (Or.inr hs2))) hnodup.2
          ⟨ctx.sections ++ [⟨some n, q :: qs⟩]⟩ (some ctx.sections.length) (hfresh2 (q :: qs))
        rw [hih, hseq]
        simp [List.append_assoc]

theorem roundtrip_of_wf (m : DContext) (hwf : WFC m) :
    dmini_parse_string dmini_create (dmini_generate_string m) = (DMINI_OK, m) := by
  obtain ⟨⟨g, rest, hshape, hrestnamed⟩, hnodup, hgood⟩ := hwf
  have hgen : dmini_generate_string m = render_pairs g ++ render_sections rest := by
    show render_sections m.sections = _
    rw [hshape]
    have h1 : render_sections (⟨none, g⟩ :: rest) =
        (match (none : Option Str) with
         | some m2 => '[' :: (m2 ++ [']', '\n'])
         | none => [])
        ++ render_pairs g
        ++ (if (none : Option Str).isSome ∧ rest ≠ [] then ['\n'] else [])
        ++ render_sections rest := rfl
    rw [h1]
    simp
  have hrun : dmini_parse_string dmini_create (dmini_generate_string m) =
      run_parse dmini_create (some 0) (dmini_generate_string m) := by
    simp only [dmini_parse_string, run_parse]
    rw [if_neg (by simp [dmini_create] : ¬dmini_create.sections = [])]
  rw [hrun, hgen]
  have hrestnames : ∀ s ∈ rest, ∃ n, s.name = some n ∧ good_name n = true := by
    intro s hs
    obtain ⟨n, hn⟩ := hrestnamed s hs
    exact ⟨n, hn, (hgood s (by rw [hshape]; simp [hs])).2 n hn⟩
  have hrestpairs : ∀ s ∈ rest, GoodPairs s.pairs := by
    intro s hs
    exact (hgood s (by rw [hshape]; simp [hs])).1
  have hrestnodup : (rest.map (fun s => s.name)).Nodup := by
    rw [hshape] at hnodup
    simp only [List.map_cons, List.nodup_cons] at hnodup
    exact hnodup.2
  have hdrop : drop_second_nl (render_sections rest) = render_sections rest := by
    match hr2 : rest with
    | [] => rfl
    | s2 :: rest2 =>
      rw [hr2] at hrestnames
      apply drop_second_nl_id
      intro c hc
      obtain ⟨n2, hn2, _⟩ := hrestnames s2 (by simp)
      have hform : render_sections (s2 :: rest2) =
          '[' :: ((n2 ++ [']', '\n']) ++ (render_pairs s2.pairs ++
            ((if s2.name.isSome ∧ rest2 ≠ [] then ['\n'] else []) ++
              render_sections rest2))) := by
        have h1 : render_sections (s2 :: rest2) =
            (match s2.name with
             | some m2 => '[' :: (m2 ++ [']', '\n'])
             | none => [])
            ++ render_pairs s2.pairs
            ++ (if s2.name.isSome ∧ rest2 ≠ [] then ['\n'] else [])
            ++ render_sections rest2 := rfl
        rw [h1, hn2]
        simp [List.append_assoc]
      rw [hform] at hc
      simp only [List.head?_cons, Option.some.injEq] at hc
      rw [← hc]
      exact ⟨by decide, by decide⟩
  have hm_eq : (⟨⟨none, g⟩ :: rest⟩ : DContext) = m := by
    rw [← hshape]
  have hfresh0 : ∀ s ∈ rest, ∀ s2 ∈ ([⟨none, g⟩] : List DSection), s2.name ≠ s.name := by
    intro s hs s2 hs2
    obtain ⟨n, hn, _⟩ := hrestnames s hs
    have h3 : s2 = ⟨none, g⟩ := by simpa using hs2
    rw [h3, hn]
    simp
  have hfreshc : ∀ s ∈ rest, ∀ s2 ∈ dmini_create.sections, s2.name ≠ s.name := by
    intro s hs s2 hs2
    obtain ⟨n, hn, _⟩ := hrestnames s hs
    have h3 : s2 = ⟨none, []⟩ := by simpa [dmini_create] using hs2
    rw [h3, hn]
    simp
  by_cases hg : g = []
  · subst hg
    have hrp : render_pairs ([] : List DPair) = [] := rfl
    rw [hrp, List.nil_append]
    have hblk := parse_sections_block rest hrestnames hrestpairs hrestnodup
      dmini_create (some 0) hfreshc
    rw [hblk, ← hm_eq]
    rfl
  · have hGPg : GoodPairs g := (hgood ⟨none, g⟩ (by rw [hshape]; simp)).1
    have hppb := parse_pairs_block g hg (fun p hp => hGPg.2 p hp)
      dmini_create 0 (render_sections rest)
    rw [hppb, hdrop]
    have hsm : set_many_at dmini_create 0 g = ⟨[⟨none, g⟩]⟩ := by
      show set_many_at ⟨([] : List DSection) ++ [⟨none, []⟩]⟩
        (List.length ([] : List DSection)) g = _
      rw [set_many_at_append g [] none []]
      rw [set_fold_pairs_append g [] (fun p _ => rfl) hGPg.1]
      rfl
    rw [hsm]
    have hblk := parse_sections_block rest hrestnames hrestpairs hrestnodup
      ⟨[⟨none, g⟩]⟩ (some 0) hfresh0
    rw [hblk, ← hm_eq]
    rfl

/-- Claim C1 fails as stated: the key "a=b" contains none of the
characters the claim forbids in keys ('\n', '\r', leading/trailing
whitespace), yet the model set through set_string with that key does not
survive generate-then-parse — the generated line "a=b=v" re-parses as key
"a" with value "b=v". -/
theorem claim_C1_roundtrip_counterexample :
    dmini_parse_string dmini_create
        (dmini_generate_string (dmini_set_string dmini_create none
          ['a', '=', 'b'] ['v'])) ≠
      (DMINI_OK, dmini_set_string dmini_create none ['a', '=', 'b'] ['v']) := by
  decide

/-- Claim C1 as amended: for every model populated purely through
set_string/set_int whose keys are non-empty, contain no '\n', '\r' or
'=', do not start with '[', ';' or '#', and have no leading/trailing
whitespace; whose values contain no '\n', '\r' or '=' and have no
leading/trailing whitespace; and whose section names contain no '\n',
'\r' or ']' and have no leading/trailing whitespace — parsing the
generated text into a fresh context reproduces exactly the same model:
same sections in order, same keys per section in order, same values. -/
theorem claim_C1_roundtrip (m : DContext) (h : BuiltC m) :
    dmini_parse_string dmini_create (dmini_generate_string m) = (DMINI_OK, m) :=
  roundtrip_of_wf m (builtc_wf m h)

theorem claim_C1_roundtrip_witness :
    dmini_parse_string dmini_create
        (dmini_generate_string (dmini_set_int
          (dmini_set_string dmini_create (some ['s']) ['k'] ['v']) none ['n'] 42)) =
      (DMINI_OK, dmini_set_int
        (dmini_set_string dmini_create (some ['s']) ['k'] ['v']) none ['n'] 42) :=
  claim_C1_roundtrip _
    (BuiltC.set_integer _ none ['n'] 42
      (BuiltC.set_str _ (some ['s']) ['k'] ['v'] BuiltC.fresh
        (by decide) (by decide) (by decide))
      (by decide) (by decide))
